import Mathlib

/-!
Shallow embedding of the Career-Copilot semantic matching core.

The embedding translates `src/analysis/resume_analyzer.py`,
`src/etl/ingest_jobs_and_skills.py` and `src/ai/generate_roadmap.py`.
Python floats are idealised as exact rationals; the single float
phenomenon the code depends on, namely that a cosine similarity with a
zero denominator is NaN and that NaN compares false against every
threshold, is modelled explicitly by the `RFloat` type.  External
collaborators (the sentence-transformer embedder, the float norm, the
LLM chain, the datastore contents) are parameters of the definitions,
as the spec declares them black boxes.
-/

namespace CareerCopilot

deriving instance DecidableEq for Except

/-- Errors raised by the Python runtime on the modelled code paths
(`range` arg 3 must not be zero; `ThreadPoolExecutor` needs a positive
worker count). -/
inductive PyErr where
  | valueError
deriving DecidableEq

/-- A float value: either a genuine rational or NaN.  In exact
arithmetic the cosine denominator is zero only when one vector is the
zero vector, in which case the numerator is zero as well, so the float
result is 0.0/0.0 = NaN. -/
inductive RFloat where
  | nan : RFloat
  | val : ℚ → RFloat
deriving DecidableEq

/-- `np.dot` of two equal-length vectors. -/
def dotQ (a b : List ℚ) : ℚ := (List.zipWith (· * ·) a b).sum

/-- Sum of squares of a vector; zero exactly on the zero vector. -/
def normSq (v : List ℚ) : ℚ := (v.map (fun x => x * x)).sum

/-- Cosine similarity `np.dot(a, b) / (norm(a) * norm(b))` for an
abstract norm function `nrm` (the float `np.linalg.norm`).  A zero
denominator yields NaN. -/
def cosSim (nrm : List ℚ → ℚ) (a b : List ℚ) : RFloat :=
  if nrm a * nrm b = 0 then RFloat.nan else RFloat.val (dotQ a b / (nrm a * nrm b))

/-- `np.maximum` on two floats: NaN propagates. -/
def rmax : RFloat → RFloat → RFloat
  | RFloat.nan, _ => RFloat.nan
  | _, RFloat.nan => RFloat.nan
  | RFloat.val a, RFloat.val b => RFloat.val (max a b)

/-- `np.max` of a vector of floats (NaN-propagating; the empty case is
unreachable in the modelled code because the chunk list is nonempty). -/
def npMax : List RFloat → RFloat
  | [] => RFloat.nan
  | x :: xs => xs.foldl rmax x

/-- Whitespace characters recognised by the Python `str.split()` used in
the analyzer (ASCII fragment). -/
def isPySpace (ch : Char) : Bool :=
  ch == ' ' || ch == '\t' || ch == '\n' || ch == '\r' || ch == '\x0b' || ch == '\x0c'

/-- Worker for `pySplit`: walks the characters accumulating the current
word (reversed). -/
def splitWSAux : List Char → List Char → List String
  | [], acc => if acc.isEmpty then [] else [String.mk acc.reverse]
  | ch :: rest, acc =>
    if isPySpace ch then
      if acc.isEmpty then splitWSAux rest [] else String.mk acc.reverse :: splitWSAux rest []
    else splitWSAux rest (ch :: acc)

/-- Python `text.split()`: split on whitespace runs, dropping empty
tokens. -/
def pySplit (s : String) : List String := splitWSAux s.data []

/-- Worker for `pyRangeUp`.  The fuel argument only serves structural
recursion; `stop` units of fuel are always sufficient because each step
advances the index by `step ≥ 1`. -/
def pyRangeGo (stop step : Nat) : Nat → Nat → List Nat
  | 0, _ => []
  | fuel + 1, i => if i < stop then i :: pyRangeGo stop step fuel (i + step) else []

/-- Python `range(0, stop, step)` for a positive `step`. -/
def pyRangeUp (stop step : Nat) : List Nat := pyRangeGo stop step stop 0

/-- The chunk list
`[" ".join(words[i:i + chunk_size]) for i in range(0, len(words), step)]`
for a positive `step`. -/
def chunkText (words : List String) (chunk_size step : Nat) : List String :=
  (pyRangeUp words.length step).map
    (fun i => String.intercalate " " ((words.drop i).take chunk_size))

/-- Lines 67-68 of the analyzer: split the text into words and build the
overlapping chunks.  Python `range` raises `ValueError` when the step
`chunk_size - chunk_overlap` is zero, and produces an empty sequence
when the step is negative. -/
def extractChunks (text : String) (chunk_size chunk_overlap : Nat) :
    Except PyErr (List String) :=
  let words := pySplit text
  let step : Int := (chunk_size : Int) - (chunk_overlap : Int)
  if step = 0 then Except.error PyErr.valueError
  else Except.ok (if step < 0 then [] else chunkText words chunk_size step.toNat)

/-- A vocabulary row as produced by `get_skills_with_embeddings`:
`emb_array` is `None` for an absent or malformed serialized embedding. -/
structure Skill where
  skill_id : Nat
  name : String
  emb_array : Option (List ℚ)
deriving DecidableEq

/-- A value of the `skill_similarities` dict. -/
structure SimEntry where
  skill_id : Nat
  max_sim : ℚ
deriving DecidableEq

/-- The `skill_similarities` dict, modelled as an insertion-ordered
association list, matching the CPython dict iteration order. -/
abbrev SimDict := List (String × SimEntry)

def dictKeys (d : SimDict) : List String := d.map Prod.fst

/-- `d[k] = v` on a Python dict: an existing key keeps its position and
gets the new value, a new key is appended at the end. -/
def dictSet (d : SimDict) (k : String) (v : SimEntry) : SimDict :=
  if d.any (fun p => p.1 == k) then d.map (fun p => if p.1 == k then (k, v) else p)
  else d ++ [(k, v)]

/-- Line 83 and 86 of the analyzer for one skill: cosine similarities of
the skill embedding against every chunk embedding, reduced by `np.max`. -/
def scoreSkillEmb (nrm : List ℚ → ℚ) (chunk_embeddings : List (List ℚ)) (emb : List ℚ) :
    RFloat :=
  npMax (chunk_embeddings.map (fun ce => cosSim nrm ce emb))

/-- The body of the `for skill in skill_rows` loop (lines 77-92): skip a
missing or empty embedding, otherwise store the max similarity under the
skill name when it passes the threshold.  The NaN branch transcribes the
numpy fact that `nan >= t` is false. -/
def simStep (nrm : List ℚ → ℚ) (chunk_embeddings : List (List ℚ)) (thr : ℚ)
    (d : SimDict) (skill : Skill) : SimDict :=
  match skill.emb_array with
  | none => d
  | some emb =>
    if emb.length == 0 then d
    else
      match scoreSkillEmb nrm chunk_embeddings emb with
      | RFloat.nan => d
      | RFloat.val q => if thr ≤ q then dictSet d skill.name ⟨skill.skill_id, q⟩ else d

/-- The full similarity dict after the loop over the vocabulary. -/
def buildSimDict (nrm : List ℚ → ℚ) (chunk_embeddings : List (List ℚ)) (thr : ℚ)
    (vocab : List Skill) : SimDict :=
  vocab.foldl (simStep nrm chunk_embeddings thr) []

/-- Whether a vocabulary row contributes an entry to the dict: present
nonempty embedding whose max chunk similarity is a non-NaN value at or
above the threshold. -/
def skillQual (nrm : List ℚ → ℚ) (cembs : List (List ℚ)) (thr : ℚ) (s : Skill) : Bool :=
  match s.emb_array with
  | none => false
  | some emb =>
    if emb.length == 0 then false
    else
      match scoreSkillEmb nrm cembs emb with
      | RFloat.nan => false
      | RFloat.val q => decide (thr ≤ q)

/-- The rational value of a qualifying max similarity (0 as a dummy on
non-qualifying rows). -/
def qScore (nrm : List ℚ → ℚ) (cembs : List (List ℚ)) (s : Skill) : ℚ :=
  match s.emb_array with
  | none => 0
  | some emb =>
    match scoreSkillEmb nrm cembs emb with
    | RFloat.nan => 0
    | RFloat.val q => q

/-- Insert one element into a descending-sorted list, after every
element with a strictly greater key and before equal-keyed ones; this is
the unique stable placement. -/
def insertDescBy {α κ : Type*} [LinearOrder κ] (k : α → κ) (x : α) : List α → List α
  | [] => [x]
  | y :: ys => if k x < k y then y :: insertDescBy k x ys else x :: y :: ys

/-- Stable descending sort by key; models
`sorted(items, key=..., reverse=True)`, which is the unique stable
descending reordering. -/
def sortDescBy {α κ : Type*} [LinearOrder κ] (k : α → κ) : List α → List α
  | [] => []
  | x :: xs => insertDescBy k x (sortDescBy k xs)

/-- `extract_skills_from_text` (lines 58-98 of the analyzer) with the
embedder `enc`, the float norm `nrm` and the cached vocabulary as
explicit parameters. -/
def extract_skills_from_text (enc : String → List ℚ) (nrm : List ℚ → ℚ) (text : String)
    (vocab : List Skill) (top_k : Nat) (sim_threshold : ℚ) (chunk_size chunk_overlap : Nat) :
    Except PyErr (List (Nat × String × ℚ)) :=
  if text = "" ∨ vocab = [] then Except.ok []
  else
    match extractChunks text chunk_size chunk_overlap with
    | Except.error e => Except.error e
    | Except.ok chunks =>
      if chunks = [] then Except.ok []
      else
        let chunk_embeddings := chunks.map enc
        let d := buildSimDict nrm chunk_embeddings sim_threshold vocab
        let sorted_skills := sortDescBy (fun it => it.2.max_sim) d
        let matched := sorted_skills.map (fun it => (it.2.skill_id, it.1, it.2.max_sim))
        Except.ok (matched.take top_k)

/-- The chunk embeddings a call of `extract_skills_from_text` works on
(empty when the chunker errors or yields nothing); used only to state
theorems. -/
def chunkEmbsD (enc : String → List ℚ) (text : String) (chunk_size chunk_overlap : Nat) :
    List (List ℚ) :=
  match extractChunks text chunk_size chunk_overlap with
  | Except.error _ => []
  | Except.ok chunks => chunks.map enc

/-- The per-job skill-linking loop of `ingest_jobs` (lines 131-144 of
the ETL script): one embedding of the whole job text, cosine similarity
against every cached skill, a row `(skill_id, weight)` for each
similarity at or above the threshold, in vocabulary order. -/
def linkJobSkills (enc : String → List ℚ) (nrm : List ℚ → ℚ) (job_text : String)
    (vocab : List Skill) (sim_threshold : ℚ) : List (Nat × ℚ) :=
  let job_emb := enc job_text
  vocab.foldl
    (fun acc skill =>
      match skill.emb_array with
      | none => acc
      | some skill_emb =>
        if skill_emb.length == 0 then acc
        else
          match cosSim nrm job_emb skill_emb with
          | RFloat.nan => acc
          | RFloat.val sim =>
            if sim_threshold ≤ sim then acc ++ [(skill.skill_id, sim)] else acc) []

/-- First-occurrence deduplication (the order a SQL GROUP BY is modelled
to emit groups, and the key order of a Python dict). -/
def dedupFirstOcc {α : Type*} [DecidableEq α] (l : List α) : List α :=
  l.foldl (fun acc x => if x ∈ acc then acc else acc ++ [x]) []

/-- Worker for SQL LIKE matching with the `%` and `_` wildcards.  The
fuel only serves structural recursion; every recursive call shrinks
pattern plus subject, so `ps.length + s.length + 1` units suffice. -/
def likeGo : Nat → List Char → List Char → Bool
  | 0, _, _ => false
  | _ + 1, [], s => s.isEmpty
  | fuel + 1, '%' :: ps, s =>
    likeGo fuel ps s ||
      (match s with
       | [] => false
       | _ :: s2 => likeGo fuel ('%' :: ps) s2)
  | fuel + 1, '_' :: ps, s =>
    (match s with
     | [] => false
     | _ :: s2 => likeGo fuel ps s2)
  | fuel + 1, pc :: ps, s =>
    (match s with
     | [] => false
     | sc :: s2 => pc == sc && likeGo fuel ps s2)

/-- SQL `s LIKE pattern` with `%` and `_` wildcards. -/
def likeB (pattern s : String) : Bool :=
  likeGo (pattern.length + s.length + 1) pattern.data s.data

/-- ASCII lowercasing, modelling both SQL `LOWER` and Python
`str.lower()` on the inputs in play. -/
def lowerStr (s : String) : String := String.mk (s.data.map Char.toLower)

/-- Whether the needle occurs literally at the head of the haystack.
Spec-side notion used to state plain substring containment, which the
spec asserts of the gap query. -/
def containsAt : List Char → List Char → Bool
  | [], _ => true
  | _ :: _, [] => false
  | a :: as, b :: bs => a == b && containsAt as bs

/-- Whether the needle occurs literally anywhere in the haystack.
Spec-side notion of (case-handled) substring containment. -/
def subStr (needle : List Char) : List Char → Bool
  | [] => needle.isEmpty
  | c :: rest => containsAt needle (c :: rest) || subStr needle rest

/-- Row of the `skills` table as seen by the gap query. -/
structure SkillRow where
  skill_id : Nat
  name : String
deriving DecidableEq

/-- Row of the `jobs` table as seen by the gap query. -/
structure JobRow where
  job_id : Nat
  title : String
deriving DecidableEq

/-- Row of the `job_skills` link table. -/
structure JobSkillRow where
  job_id : Nat
  skill_id : Nat
deriving DecidableEq

/-- Row of the `user_skills` table. -/
structure UserSkillRow where
  user_id : Nat
  skill_id : Nat
  confidence : ℚ
deriving DecidableEq

/-- The tables the `compute_gap` query reads. -/
structure GapDB where
  skills : List SkillRow
  jobs : List JobRow
  job_skills : List JobSkillRow
  user_skills : List UserSkillRow
deriving DecidableEq

/-- The join rows `(s.skill_id, s.name, js.job_id)` surviving the WHERE
clause of the gap query: skills joined to jobs through `job_skills`,
restricted to LIKE-matching lowercased titles and to skills not recorded
for the user. -/
def gapRows (db : GapDB) (user_id : Nat) (pattern : String) : List (Nat × String × Nat) :=
  db.skills.flatMap
    (fun s =>
      if db.user_skills.any (fun us => us.user_id == user_id && us.skill_id == s.skill_id)
      then []
      else
        (db.job_skills.filter (fun js => js.skill_id == s.skill_id)).flatMap
          (fun js =>
            (db.jobs.filter
                (fun j => j.job_id == js.job_id && likeB pattern (lowerStr j.title))).map
              (fun _j => (s.skill_id, s.name, js.job_id))))

/-- `compute_gap` (lines 110-131 of the analyzer): the SQL aggregate
modelled over explicit tables.  Groups are emitted in first-occurrence
order (SQL leaves tie order among equal frequencies unspecified), sorted
by descending frequency and truncated to `top_n`.  Pure read: the
function takes the database by value and mutates nothing. -/
def compute_gap (db : GapDB) (user_id : Nat) (role_pattern : String) (top_n : Nat) :
    List (Nat × String × Nat) :=
  let pattern := "%" ++ lowerStr role_pattern ++ "%"
  let rows := gapRows db user_id pattern
  let groups := dedupFirstOcc (rows.map (fun r => (r.1, r.2.1)))
  let grouped := groups.map
    (fun g => (g.1, g.2, (rows.filter (fun r => r.1 == g.1 && r.2.1 == g.2)).length))
  (sortDescBy (fun g => g.2.2) grouped).take top_n

/-- State of the `user_skills` table. -/
abbrev UserSkillsTable := List UserSkillRow

/-- The statement sequence `save_user_skills` issues inside one
transaction: the DELETE for the user followed by one INSERT per matched
skill, in list order (lines 100-108 of the analyzer). -/
def userSkillStmts (user_id : Nat) (matched_skills : List (Nat × String × ℚ)) :
    List (UserSkillsTable → UserSkillsTable) :=
  (fun t => t.filter (fun r => r.user_id != user_id)) ::
    matched_skills.map (fun m => (fun t => t ++ [⟨user_id, m.1, m.2.2⟩]))

/-- `save_user_skills` under `engine.begin()`.  Modelled from the spec:
the transactional commit/rollback semantics of the datastore collaborator
(`engine.begin()` commits the whole statement list on success and rolls
everything back when any statement raises) is not itself source code of
this repository; the statement sequence is.  `failAt = some k` means the
k-th statement (0-based) raises mid-transaction. -/
def save_user_skills (user_id : Nat) (matched_skills : List (Nat × String × ℚ))
    (table : UserSkillsTable) (failAt : Option Nat) : UserSkillsTable :=
  let stmts := userSkillStmts user_id matched_skills
  match failAt with
  | some k => if k < stmts.length then table else stmts.foldl (fun acc f => f acc) table
  | none => stmts.foldl (fun acc f => f acc) table

/-- One slot of the roadmap batch result: a structured plan or the
structured error payload `create_single_roadmap` builds in its except
branch. -/
inductive RoadmapSlot where
  | plan (payload : String)
  | errorPayload (message details : String)
deriving DecidableEq

/-- `create_single_roadmap` (lines 54-77 of the roadmap script) with the
LLM chain as a black-box parameter mapping (skill, importance, summary,
duration) to a structured plan or a raised error; every raised error is
caught and turned into the error-payload dict. -/
def create_single_roadmap (llm : String → Nat → String → String → Except String String)
    (skill_name : String) (importance : Nat) (user_summary duration : String) : RoadmapSlot :=
  match llm skill_name importance user_summary duration with
  | Except.ok p => RoadmapSlot.plan p
  | Except.error e =>
    RoadmapSlot.errorPayload ("Failed to generate roadmap for " ++ skill_name) e

/-- `generate_roadmap` (lines 79-95): plan the first three missing
skills; `collect` models the timing-dependent order in which
`as_completed` yields the futures (any permutation).  An empty skill
list makes `ThreadPoolExecutor(max_workers=0)` raise `ValueError`. -/
def generate_roadmap (llm : String → Nat → String → String → Except String String)
    (collect : List RoadmapSlot → List RoadmapSlot) (user_summary : String)
    (missing_skills : List (String × Nat)) (duration : String) :
    Except PyErr (List RoadmapSlot) :=
  let skills_to_plan := missing_skills.take 3
  if skills_to_plan.length = 0 then Except.error PyErr.valueError
  else
    Except.ok (collect (skills_to_plan.map
      (fun p => create_single_roadmap llm p.1 p.2 user_summary duration)))

/-- Modelled from the spec: the claim that resume extraction and
job-posting linking run the identical matching engine, differing only in
inputs and tuned parameters.  Identical application means: for some
fixed tuning of the resume-side parameters (top_k, chunk size, overlap),
every call of the job-linking path produces exactly the
(skill_id, score) rows of the resume matcher on the same text,
vocabulary, embedder, norm and threshold. -/
def sameEngineClaim : Prop :=
  ∃ top_k chunk_size chunk_overlap, ∀ (enc : String → List ℚ) (nrm : List ℚ → ℚ)
    (text : String) (vocab : List Skill) (thr : ℚ),
    ∃ out, extract_skills_from_text enc nrm text vocab top_k thr chunk_size chunk_overlap =
        Except.ok out ∧
      out.map (fun m => (m.1, m.2.2)) = linkJobSkills enc nrm text vocab thr

/-- A concrete embedder sending every string to the first basis vector;
used for witnesses and counterexamples. -/
def encConst : String → List ℚ := fun _ => [1, 0]

/-- A concrete vocabulary with one skill id under two names. -/
def vocabDupIds : List Skill :=
  [⟨1, "a", some [1, 0]⟩, ⟨1, "b", some [1, 0]⟩]

/-- A concrete vocabulary with two rows sharing one name. -/
def vocabDupNames : List Skill :=
  [⟨1, "n", some [1, 0]⟩, ⟨2, "n", some [1, 0]⟩]

/-- A concrete two-skill vocabulary with orthogonal unit embeddings. -/
def vocabBasic : List Skill :=
  [⟨1, "s1", some [1, 0]⟩, ⟨2, "s2", some [0, 1]⟩]

/-- A concrete vocabulary whose first row has a zero-magnitude
embedding. -/
def vocabZero : List Skill :=
  [⟨1, "zero", some [0, 0]⟩, ⟨2, "ok", some [1, 0]⟩]

/-- A concrete vocabulary with a duplicated name where the earlier row
scores higher than the later one against `encConst`. -/
def vocabNameTwice : List Skill :=
  [⟨1, "n", some [1, 0]⟩, ⟨2, "n", some [0, 1]⟩]

/-- Concrete tables for the gap-query counterexample: one skill linked
to one posting whose lowercased title is matched by the LIKE pattern of
"a_b" through the `_` wildcard, without containing "a_b". -/
def gapDB0 : GapDB :=
  ⟨[⟨1, "sql"⟩], [⟨1, "Axb Engineer"⟩], [⟨1, 1⟩], []⟩

/-! Helper lemmas about the stable descending sort. -/

theorem perm_insertDescBy {α κ : Type*} [LinearOrder κ] (k : α → κ) (x : α) (l : List α) :
    (insertDescBy k x l).Perm (x :: l) := by
  induction l with
  | nil => exact List.Perm.refl _
  | cons y ys ih =>
    rw [insertDescBy]
    by_cases h : k x < k y
    · rw [if_pos h]
      exact (ih.cons y).trans (List.Perm.swap x y ys)
    · rw [if_neg h]

theorem mem_insertDescBy {α κ : Type*} [LinearOrder κ] {k : α → κ} {x b : α} {l : List α} :
    b ∈ insertDescBy k x l ↔ b = x ∨ b ∈ l := by
  rw [(perm_insertDescBy k x l).mem_iff, List.mem_cons]

theorem perm_sortDescBy {α κ : Type*} [LinearOrder κ] (k : α → κ) (l : List α) :
    (sortDescBy k l).Perm l := by
  induction l with
  | nil => exact List.Perm.refl _
  | cons x xs ih =>
    rw [sortDescBy]
    exact (perm_insertDescBy k x (sortDescBy k xs)).trans (ih.cons x)

theorem pairwise_insertDescBy {α κ : Type*} [LinearOrder κ] (k : α → κ) (x : α)
    {l : List α} (h : l.Pairwise (fun a b => k b ≤ k a)) :
    (insertDescBy k x l).Pairwise (fun a b => k b ≤ k a) := by
  induction l with
  | nil => simp [insertDescBy]
  | cons y ys ih =>
    rcases List.pairwise_cons.mp h with ⟨hy, hys⟩
    rw [insertDescBy]
    by_cases hxy : k x < k y
    · rw [if_pos hxy]
      refine List.pairwise_cons.mpr ⟨?_, ih hys⟩
      intro b hb
      rcases mem_insertDescBy.mp hb with hb | hb
      · exact hb ▸ le_of_lt hxy
      · exact hy b hb
    · rw [if_neg hxy]
      refine List.pairwise_cons.mpr ⟨?_, h⟩
      intro b hb
      rcases List.mem_cons.mp hb with hb | hb
      · exact hb ▸ le_of_not_lt hxy
      · exact (hy b hb).trans (le_of_not_lt hxy)

theorem pairwise_sortDescBy {α κ : Type*} [LinearOrder κ] (k : α → κ) (l : List α) :
    (sortDescBy k l).Pairwise (fun a b => k b ≤ k a) := by
  induction l with
  | nil => simp [sortDescBy]
  | cons x xs ih =>
    rw [sortDescBy]
    exact pairwise_insertDescBy k x ih

theorem filter_insertDescBy_of_eq {α κ : Type*} [LinearOrder κ] [DecidableEq κ]
    (k : α → κ) (x : α) (l : List α) (q : κ) (hx : k x = q) :
    (insertDescBy k x l).filter (fun a => k a == q) =
      x :: l.filter (fun a => k a == q) := by
  induction l with
  | nil => simp [insertDescBy, hx]
  | cons y ys ih =>
    rw [insertDescBy]
    by_cases hxy : k x < k y
    · rw [if_pos hxy]
      have hyq : (k y == q) = false := by
        simp only [beq_eq_false_iff_ne, ne_eq]
        intro hyq
        exact absurd (hx ▸ hyq ▸ hxy) (lt_irrefl _)
      simp [List.filter_cons, hyq, ih]
    · rw [if_neg hxy]
      simp [List.filter_cons, hx]

theorem filter_insertDescBy_of_ne {α κ : Type*} [LinearOrder κ] [DecidableEq κ]
    (k : α → κ) (x : α) (l : List α) (q : κ) (hx : k x ≠ q) :
    (insertDescBy k x l).filter (fun a => k a == q) =
      l.filter (fun a => k a == q) := by
  induction l with
  | nil => simp [insertDescBy, hx]
  | cons y ys ih =>
    rw [insertDescBy]
    by_cases hxy : k x < k y
    · rw [if_pos hxy]
      simp only [List.filter_cons, ih]
    · rw [if_neg hxy]
      simp [List.filter_cons, hx]

/-- Stability of the modelled `sorted(..., reverse=True)`: within each
class of equal keys the original order is preserved. -/
theorem filter_sortDescBy {α κ : Type*} [LinearOrder κ] [DecidableEq κ]
    (k : α → κ) (l : List α) (q : κ) :
    (sortDescBy k l).filter (fun a => k a == q) = l.filter (fun a => k a == q) := by
  induction l with
  | nil => rfl
  | cons x xs ih =>
    rw [sortDescBy]
    by_cases hx : k x = q
    · rw [filter_insertDescBy_of_eq k x _ q hx, ih, List.filter_cons,
        if_pos (by simp [hx])]
    · rw [filter_insertDescBy_of_ne k x _ q hx, ih, List.filter_cons,
        if_neg (by simp [hx])]

/-! Helper lemmas about the Python dict model. -/

theorem dict_any_eq (d : SimDict) (k : String) :
    (d.any (fun p => p.1 == k)) = decide (k ∈ dictKeys d) := by
  induction d with
  | nil => simp [dictKeys]
  | cons p ps ih =>
    simp only [List.any_cons, ih, dictKeys, List.map_cons, List.mem_cons]
    by_cases h : p.1 = k
    · simp [h]
    · simp [h, Ne.symm h]

theorem dictKeys_dictSet (d : SimDict) (k : String) (v : SimEntry) :
    dictKeys (dictSet d k v) =
      if k ∈ dictKeys d then dictKeys d else dictKeys d ++ [k] := by
  rw [dictSet, dict_any_eq]
  by_cases h : k ∈ dictKeys d
  · rw [if_pos (by simpa using h), if_pos h]
    unfold dictKeys
    rw [List.map_map]
    refine List.map_congr_left ?_
    intro p _
    by_cases hp : p.1 = k
    · simp [hp]
    · simp [hp]
  · rw [if_neg (by simpa using h), if_neg h]
    simp [dictKeys]

theorem mem_dictKeys_dictSet {d : SimDict} {k a : String} {v : SimEntry} :
    a ∈ dictKeys (dictSet d k v) ↔ a ∈ dictKeys d ∨ a = k := by
  rw [dictKeys_dictSet]
  by_cases h : k ∈ dictKeys d
  · rw [if_pos h]
    constructor
    · exact Or.inl
    · rintro (ha | rfl)
      · exact ha
      · exact h
  · rw [if_neg h]
    simp

theorem nodup_dictKeys_dictSet {d : SimDict} (k : String) (v : SimEntry)
    (h : (dictKeys d).Nodup) : (dictKeys (dictSet d k v)).Nodup := by
  rw [dictKeys_dictSet]
  by_cases hk : k ∈ dictKeys d
  · rwa [if_pos hk]
  · rw [if_neg hk]
    simpa [List.nodup_append] using ⟨h, hk⟩

theorem mem_dictSet {d : SimDict} {k : String} {v : SimEntry} {p : String × SimEntry}
    (hp : p ∈ dictSet d k v) : p = (k, v) ∨ p ∈ d := by
  rw [dictSet] at hp
  by_cases h : (d.any (fun p => p.1 == k)) = true
  · rw [if_pos h] at hp
    rcases List.mem_map.mp hp with ⟨p0, hp0, hup⟩
    by_cases hp0k : p0.1 = k
    · rw [if_pos (by simpa using hp0k)] at hup
      exact Or.inl hup.symm
    · rw [if_neg (by simpa using hp0k)] at hup
      exact Or.inr (hup ▸ hp0)
  · rw [if_neg h] at hp
    rcases List.mem_append.mp hp with hp | hp
    · exact Or.inr hp
    · exact Or.inl (by simpa using hp)

theorem dictSet_mem_of_ne {d : SimDict} {k a : String} {v w : SimEntry} (hak : a ≠ k) :
    (a, w) ∈ dictSet d k v ↔ (a, w) ∈ d := by
  rw [dictSet]
  by_cases h : (d.any (fun p => p.1 == k)) = true
  · rw [if_pos h]
    constructor
    · intro hm
      rcases List.mem_map.mp hm with ⟨p0, hp0, hup⟩
      by_cases hp0k : p0.1 = k
      · rw [if_pos (by simpa using hp0k)] at hup
        exact absurd (congrArg Prod.fst hup.symm) hak
      · rw [if_neg (by simpa using hp0k)] at hup
        exact hup ▸ hp0
    · intro hm
      refine List.mem_map.mpr ⟨(a, w), hm, ?_⟩
      rw [if_neg (by simpa using hak)]
  · rw [if_neg h]
    constructor
    · intro hm
      rcases List.mem_append.mp hm with hm | hm
      · exact hm
      · exact absurd (congrArg Prod.fst (by simpa using hm : (a, w) = (k, v))) hak
    · intro hm
      exact List.mem_append.mpr (Or.inl hm)

theorem dictSet_mem_self {d : SimDict} {k : String} {v w : SimEntry}
    (hnd : (dictKeys d).Nodup) : (k, w) ∈ dictSet d k v ↔ w = v := by
  rw [dictSet]
  by_cases h : (d.any (fun p => p.1 == k)) = true
  · rw [if_pos h]
    constructor
    · intro hm
      rcases List.mem_map.mp hm with ⟨p0, hp0, hup⟩
      by_cases hp0k : p0.1 = k
      · rw [if_pos (by simpa using hp0k)] at hup
        exact (congrArg Prod.snd hup.symm : w = v)
      · rw [if_neg (by simpa using hp0k)] at hup
        exact absurd (congrArg Prod.fst hup : p0.1 = k) hp0k
    · rintro rfl
      rw [dict_any_eq] at h
      have hk : k ∈ dictKeys d := of_decide_eq_true h
      rcases List.mem_map.mp (by simpa only [dictKeys] using hk) with ⟨p0, hp0, hfst⟩
      refine List.mem_map.mpr ⟨p0, hp0, ?_⟩
      rw [if_pos (by simpa using hfst)]
  · rw [if_neg h]
    rw [dict_any_eq] at h
    have hk : k ∉ dictKeys d := by simpa using h
    constructor
    · intro hm
      rcases List.mem_append.mp hm with hm | hm
      · exact absurd (List.mem_map.mpr ⟨(k, w), hm, rfl⟩) hk
      · exact congrArg Prod.snd (by simpa using hm : (k, w) = (k, v))
    · rintro rfl
      exact List.mem_append.mpr (Or.inr (by simp))

theorem dictSet_of_not_mem {d : SimDict} {k : String} (v : SimEntry)
    (h : k ∉ dictKeys d) : dictSet d k v = d ++ [(k, v)] := by
  rw [dictSet, dict_any_eq, if_neg (by simpa using h)]

theorem length_dictSet (d : SimDict) (k : String) (v : SimEntry) :
    (dictSet d k v).length = if k ∈ dictKeys d then d.length else d.length + 1 := by
  rw [dictSet, dict_any_eq]
  by_cases h : k ∈ dictKeys d
  · rw [if_pos (by simpa using h), if_pos h, List.length_map]
  · rw [if_neg (by simpa using h), if_neg h, List.length_append, List.length_singleton]

theorem filter_key_eq_nil {d : SimDict} {k : String} (h : k ∉ dictKeys d) :
    d.filter (fun p => p.1 == k) = [] := by
  rw [List.filter_eq_nil_iff]
  intro p hp
  simp only [beq_iff_eq]
  intro hpk
  exact h (List.mem_map.mpr ⟨p, hp, hpk⟩)

theorem filter_key_eq_singleton {d : SimDict} {k : String} {v : SimEntry}
    (hnd : (dictKeys d).Nodup) (hm : (k, v) ∈ d) :
    d.filter (fun p => p.1 == k) = [(k, v)] := by
  induction d with
  | nil => cases hm
  | cons p ps ih =>
    have hnd2 : p.1 ∉ List.map Prod.fst ps ∧ (List.map Prod.fst ps).Nodup := by
      simpa only [dictKeys, List.map_cons, List.nodup_cons] using hnd
    rcases List.mem_cons.mp hm with rfl | hm
    · rw [List.filter_cons, if_pos (by simp)]
      rw [filter_key_eq_nil hnd2.1]
    · have hk : k ∈ List.map Prod.fst ps := List.mem_map.mpr ⟨(k, v), hm, rfl⟩
      have hpk : p.1 ≠ k := fun h => hnd2.1 (h ▸ hk)
      rw [List.filter_cons, if_neg (by simpa using hpk)]
      exact ih hnd2.2 hm

/-! Helper lemmas about the similarity loop. -/

theorem simStep_eq (nrm : List ℚ → ℚ) (cembs : List (List ℚ)) (thr : ℚ)
    (d : SimDict) (s : Skill) :
    simStep nrm cembs thr d s =
      if skillQual nrm cembs thr s then
        dictSet d s.name ⟨s.skill_id, qScore nrm cembs s⟩
      else d := by
  rcases hemb : s.emb_array with _ | emb
  · simp [simStep, skillQual, hemb]
  · by_cases hlen : (emb.length == 0) = true
    · simp [simStep, skillQual, hemb, hlen]
    · rcases hsc : scoreSkillEmb nrm cembs emb with _ | q
      · simp [simStep, skillQual, hemb, hlen, hsc]
      · by_cases hq : thr ≤ q
        · simp [simStep, skillQual, qScore, hemb, hlen, hsc, hq]
        · simp [simStep, skillQual, hemb, hlen, hsc, hq]

theorem dictKeys_foldl_simStep (nrm : List ℚ → ℚ) (cembs : List (List ℚ)) (thr : ℚ)
    (l : List Skill) (d : SimDict) :
    dictKeys (l.foldl (simStep nrm cembs thr) d) =
      ((l.filter (skillQual nrm cembs thr)).map Skill.name).foldl
        (fun acc n => if n ∈ acc then acc else acc ++ [n]) (dictKeys d) := by
  induction l generalizing d with
  | nil => rfl
  | cons s ls ih =>
    rw [List.foldl_cons, ih, simStep_eq, List.filter_cons]
    by_cases hq : skillQual nrm cembs thr s = true
    · rw [if_pos hq, if_pos hq, List.map_cons, List.foldl_cons, dictKeys_dictSet]
    · rw [if_neg hq, if_neg (by simpa using hq)]

/-- The dict keys after the loop are the first-occurrence deduplication
of the qualifying skill names, in vocabulary order. -/
theorem dictKeys_buildSimDict (nrm : List ℚ → ℚ) (cembs : List (List ℚ)) (thr : ℚ)
    (vocab : List Skill) :
    dictKeys (buildSimDict nrm cembs thr vocab) =
      dedupFirstOcc ((vocab.filter (skillQual nrm cembs thr)).map Skill.name) := by
  rw [buildSimDict, dictKeys_foldl_simStep]
  rfl

theorem nodup_dictKeys_foldl_simStep (nrm : List ℚ → ℚ) (cembs : List (List ℚ)) (thr : ℚ)
    (l : List Skill) (d : SimDict) (h : (dictKeys d).Nodup) :
    (dictKeys (l.foldl (simStep nrm cembs thr) d)).Nodup := by
  induction l generalizing d with
  | nil => exact h
  | cons s ls ih =>
    rw [List.foldl_cons, simStep_eq]
    by_cases hq : skillQual nrm cembs thr s = true
    · rw [if_pos hq]
      exact ih _ (nodup_dictKeys_dictSet _ _ h)
    · rw [if_neg hq]
      exact ih _ h

theorem nodup_dictKeys_buildSimDict (nrm : List ℚ → ℚ) (cembs : List (List ℚ)) (thr : ℚ)
    (vocab : List Skill) : (dictKeys (buildSimDict nrm cembs thr vocab)).Nodup :=
  nodup_dictKeys_foldl_simStep nrm cembs thr vocab [] List.nodup_nil

theorem mem_foldl_simStep {nrm : List ℚ → ℚ} {cembs : List (List ℚ)} {thr : ℚ}
    {l : List Skill} {d : SimDict} {p : String × SimEntry}
    (hp : p ∈ l.foldl (simStep nrm cembs thr) d) :
    p ∈ d ∨ ∃ s ∈ l, s.name = p.1 ∧ skillQual nrm cembs thr s = true ∧
      p.2 = ⟨s.skill_id, qScore nrm cembs s⟩ := by
  induction l generalizing d with
  | nil => exact Or.inl hp
  | cons s ls ih =>
    rw [List.foldl_cons, simStep_eq] at hp
    by_cases hq : skillQual nrm cembs thr s = true
    · rw [if_pos hq] at hp
      rcases ih hp with hp | ⟨s0, hs0, hrest⟩
      · rcases mem_dictSet hp with rfl | hp
        · exact Or.inr ⟨s, List.mem_cons_self s ls, rfl, hq, rfl⟩
        · exact Or.inl hp
      · exact Or.inr ⟨s0, List.mem_cons_of_mem s hs0, hrest⟩
    · rw [if_neg hq] at hp
      rcases ih hp with hp | ⟨s0, hs0, hrest⟩
      · exact Or.inl hp
      · exact Or.inr ⟨s0, List.mem_cons_of_mem s hs0, hrest⟩

theorem mem_dictKeys_foldl_simStep {nrm : List ℚ → ℚ} {cembs : List (List ℚ)} {thr : ℚ}
    {l : List Skill} {d : SimDict} {a : String} :
    a ∈ dictKeys (l.foldl (simStep nrm cembs thr) d) ↔
      a ∈ dictKeys d ∨ ∃ s ∈ l, s.name = a ∧ skillQual nrm cembs thr s = true := by
  induction l generalizing d with
  | nil => simp
  | cons s ls ih =>
    rw [List.foldl_cons, simStep_eq]
    by_cases hq : skillQual nrm cembs thr s = true
    · rw [if_pos hq, ih]
      constructor
      · rintro (hk | hex)
        · rcases mem_dictKeys_dictSet.mp hk with hk | rfl
          · exact Or.inl hk
          · exact Or.inr ⟨s, List.mem_cons_self s ls, rfl, hq⟩
        · rcases hex with ⟨s0, hs0, h1, h2⟩
          exact Or.inr ⟨s0, List.mem_cons_of_mem s hs0, h1, h2⟩
      · rintro (hk | ⟨s0, hs0, h1, h2⟩)
        · exact Or.inl (mem_dictKeys_dictSet.mpr (Or.inl hk))
        · rcases List.mem_cons.mp hs0 with rfl | hs0
          · exact Or.inl (mem_dictKeys_dictSet.mpr (Or.inr h1.symm))
          · exact Or.inr ⟨s0, hs0, h1, h2⟩
    · rw [if_neg hq, ih]
      constructor
      · rintro (hk | ⟨s0, hs0, h1, h2⟩)
        · exact Or.inl hk
        · exact Or.inr ⟨s0, List.mem_cons_of_mem s hs0, h1, h2⟩
      · rintro (hk | ⟨s0, hs0, h1, h2⟩)
        · exact Or.inl hk
        · rcases List.mem_cons.mp hs0 with rfl | hs0
          · exact absurd h2 hq
          · exact Or.inr ⟨s0, hs0, h1, h2⟩

theorem foldl_simStep_key_frozen {nrm : List ℚ → ℚ} {cembs : List (List ℚ)} {thr : ℚ}
    {l : List Skill} {a : String} {w : SimEntry} (hl : ∀ s ∈ l, s.name ≠ a)
    (d : SimDict) : (a, w) ∈ l.foldl (simStep nrm cembs thr) d ↔ (a, w) ∈ d := by
  induction l generalizing d with
  | nil => exact Iff.rfl
  | cons s ls ih =>
    rw [List.foldl_cons, simStep_eq]
    have hls : ∀ s0 ∈ ls, s0.name ≠ a := fun s0 hs0 => hl s0 (List.mem_cons_of_mem s hs0)
    by_cases hq : skillQual nrm cembs thr s = true
    · rw [if_pos hq, ih hls,
        dictSet_mem_of_ne (fun h => hl s (List.mem_cons_self s ls) h.symm)]
    · rw [if_neg hq, ih hls]

theorem length_foldl_simStep (nrm : List ℚ → ℚ) (cembs : List (List ℚ)) (thr : ℚ)
    (l : List Skill) (d : SimDict) :
    (l.foldl (simStep nrm cembs thr) d).length ≤
      d.length + (l.filter (skillQual nrm cembs thr)).length := by
  induction l generalizing d with
  | nil => simp
  | cons s ls ih =>
    rw [List.foldl_cons, simStep_eq, List.filter_cons]
    by_cases hq : skillQual nrm cembs thr s = true
    · rw [if_pos hq, if_pos hq]
      refine (ih _).trans ?_
      rw [length_dictSet]
      by_cases hk : s.name ∈ dictKeys d
      · rw [if_pos hk]
        simp only [List.length_cons]
        omega
      · rw [if_neg hk]
        simp only [List.length_cons]
        omega
    · rw [if_neg hq, if_neg (by simpa using hq)]
      exact ih d

/-- Under pairwise-fresh names the loop appends one dict row per
qualifying skill, in vocabulary order. -/
theorem foldl_simStep_of_fresh {nrm : List ℚ → ℚ} {cembs : List (List ℚ)} {thr : ℚ}
    {l : List Skill} (d : SimDict) (hnames : (l.map Skill.name).Nodup)
    (hfresh : ∀ s ∈ l, s.name ∉ dictKeys d) :
    l.foldl (simStep nrm cembs thr) d =
      d ++ (l.filter (skillQual nrm cembs thr)).map
        (fun s => (s.name, ⟨s.skill_id, qScore nrm cembs s⟩)) := by
  induction l generalizing d with
  | nil => simp
  | cons s ls ih =>
    have hnames2 : s.name ∉ ls.map Skill.name ∧ (ls.map Skill.name).Nodup := by
      simpa only [List.map_cons, List.nodup_cons] using hnames
    rw [List.foldl_cons, simStep_eq, List.filter_cons]
    by_cases hq : skillQual nrm cembs thr s = true
    · rw [if_pos hq, if_pos hq,
        dictSet_of_not_mem _ (hfresh s (List.mem_cons_self s ls))]
      rw [ih _ hnames2.2 ?_, List.map_cons, List.append_assoc]
      · rfl
      · intro s0 hs0
        rw [dictKeys, List.map_append]
        rw [List.mem_append]
        rintro (hk | hk)
        · exact hfresh s0 (List.mem_cons_of_mem s hs0) hk
        · have : s0.name = s.name := by simpa [dictKeys] using hk
          exact hnames2.1 (this ▸ List.mem_map.mpr ⟨s0, hs0, rfl⟩)
    · rw [if_neg hq, if_neg (by simpa using hq)]
      exact ih _ hnames2.2 (fun s0 hs0 => hfresh s0 (List.mem_cons_of_mem s hs0))

/-! Helper lemmas about the job-linking loop. -/

theorem npMax_singleton (x : RFloat) : npMax [x] = x := rfl

theorem linkJobSkills_eq_filter (enc : String → List ℚ) (nrm : List ℚ → ℚ)
    (job_text : String) (vocab : List Skill) (thr : ℚ) :
    linkJobSkills enc nrm job_text vocab thr =
      (vocab.filter (skillQual nrm [enc job_text] thr)).map
        (fun s => (s.skill_id, qScore nrm [enc job_text] s)) := by
  have hstep : ∀ (acc : List (Nat × ℚ)) (s : Skill),
      (match s.emb_array with
        | none => acc
        | some skill_emb =>
          if skill_emb.length == 0 then acc
          else
            match cosSim nrm (enc job_text) skill_emb with
            | RFloat.nan => acc
            | RFloat.val sim =>
              if thr ≤ sim then acc ++ [(s.skill_id, sim)] else acc) =
        if skillQual nrm [enc job_text] thr s then
          acc ++ [(s.skill_id, qScore nrm [enc job_text] s)]
        else acc := by
    intro acc s
    rcases hemb : s.emb_array with _ | emb
    · simp [skillQual, hemb]
    · by_cases hlen : (emb.length == 0) = true
      · simp [skillQual, hemb, hlen]
      · have hsc : scoreSkillEmb nrm [enc job_text] emb = cosSim nrm (enc job_text) emb := by
          rw [scoreSkillEmb, List.map_cons, List.map_nil, npMax_singleton]
        rcases hcs : cosSim nrm (enc job_text) emb with _ | q
        · simp [skillQual, hemb, hlen, hsc, hcs]
        · by_cases hq : thr ≤ q
          · simp [skillQual, qScore, hemb, hlen, hsc, hcs, hq]
          · simp [skillQual, hemb, hlen, hsc, hcs, hq]
  rw [linkJobSkills]
  have main : ∀ (l : List Skill) (acc : List (Nat × ℚ)),
      l.foldl (fun acc skill =>
        match skill.emb_array with
        | none => acc
        | some skill_emb =>
          if skill_emb.length == 0 then acc
          else
            match cosSim nrm (enc job_text) skill_emb with
            | RFloat.nan => acc
            | RFloat.val sim =>
              if thr ≤ sim then acc ++ [(skill.skill_id, sim)] else acc) acc =
        acc ++ (l.filter (skillQual nrm [enc job_text] thr)).map
          (fun s => (s.skill_id, qScore nrm [enc job_text] s)) := by
    intro l
    induction l with
    | nil => simp
    | cons s ls ih =>
      intro acc
      rw [List.foldl_cons, hstep, List.filter_cons]
      by_cases hq : skillQual nrm [enc job_text] thr s = true
      · rw [if_pos hq, if_pos hq, ih, List.map_cons, List.append_assoc]
        rfl
      · rw [if_neg hq, if_neg (by simpa using hq)]
        exact ih acc
  exact main vocab []

/-! Helper lemmas about the chunker and the main branch of the
matcher. -/

theorem pyRangeGo_eq (stop step : Nat) (hstep : 1 ≤ step) :
    ∀ (fuel i : Nat), stop - i ≤ fuel →
      pyRangeGo stop step fuel i =
        (List.range ((stop - i + step - 1) / step)).map (fun j => i + j * step) := by
  intro fuel
  induction fuel with
  | zero =>
    intro i hi
    have h0 : stop - i = 0 := by omega
    rw [pyRangeGo, h0, Nat.zero_add, Nat.div_eq_of_lt (by omega), List.range_zero,
      List.map_nil]
  | succ fuel ih =>
    intro i hi
    rw [pyRangeGo]
    by_cases hlt : i < stop
    · rw [if_pos hlt]
      have h2 : (stop - i + step - 1) / step = (stop - i - 1) / step + 1 := by
        have h1 : stop - i + step - 1 = (stop - i - 1) + step := by omega
        rw [h1, Nat.add_div_right _ (by omega)]
      have h3 : (stop - (i + step) + step - 1) / step = (stop - i - 1) / step := by
        by_cases hc : i + step ≤ stop
        · congr 1
          omega
        · have ha : stop - (i + step) + step - 1 = step - 1 := by omega
          rw [ha, Nat.div_eq_of_lt (by omega), Nat.div_eq_of_lt (by omega)]
      rw [ih (i + step) (by omega), h2, h3, List.range_succ_eq_map, List.map_cons,
        List.map_map]
      congr 1
      · simp
      · refine List.map_congr_left (fun j _ => ?_)
        simp only [Function.comp_apply, Nat.succ_eq_add_one]
        ring
    · rw [if_neg hlt]
      have h0 : stop - i = 0 := by omega
      rw [h0, Nat.zero_add, Nat.div_eq_of_lt (by omega), List.range_zero, List.map_nil]

theorem chunkText_eq (words : List String) (c s : Nat) (hs : 1 ≤ s) :
    chunkText words c s = (List.range ((words.length + s - 1) / s)).map
      (fun j => String.intercalate " " ((words.drop (j * s)).take c)) := by
  rw [chunkText, pyRangeUp, pyRangeGo_eq _ _ hs _ 0 (by omega), Nat.sub_zero,
    List.map_map]
  refine List.map_congr_left (fun j _ => ?_)
  simp

theorem length_chunkText (words : List String) (c s : Nat) (hs : 1 ≤ s) :
    (chunkText words c s).length = (words.length + s - 1) / s := by
  rw [chunkText_eq words c s hs, List.length_map, List.length_range]

theorem extract_main_branch (enc : String → List ℚ) (nrm : List ℚ → ℚ) (text : String)
    (vocab : List Skill) (k : Nat) (thr : ℚ) (c o : Nat) (chunks : List String)
    (htext : text ≠ "") (hvocab : vocab ≠ [])
    (hch : extractChunks text c o = Except.ok chunks) (hne : chunks ≠ []) :
    extract_skills_from_text enc nrm text vocab k thr c o =
      Except.ok (((sortDescBy (fun it => it.2.max_sim)
        (buildSimDict nrm (chunks.map enc) thr vocab)).map
          (fun it => (it.2.skill_id, it.1, it.2.max_sim))).take k) := by
  rw [extract_skills_from_text, if_neg (by simp [htext, hvocab]), hch]
  dsimp only
  rw [if_neg hne]

theorem extract_mem {enc : String → List ℚ} {nrm : List ℚ → ℚ} {text : String}
    {vocab : List Skill} {k : Nat} {thr : ℚ} {c o : Nat}
    {out : List (Nat × String × ℚ)} {m : Nat × String × ℚ}
    (h : extract_skills_from_text enc nrm text vocab k thr c o = Except.ok out)
    (hm : m ∈ out) :
    ∃ s ∈ vocab, s.name = m.2.1 ∧ s.skill_id = m.1 ∧
      skillQual nrm (chunkEmbsD enc text c o) thr s = true ∧
      m.2.2 = qScore nrm (chunkEmbsD enc text c o) s := by
  rw [extract_skills_from_text] at h
  by_cases h0 : text = "" ∨ vocab = []
  · rw [if_pos h0] at h
    obtain rfl := Except.ok.inj h
    cases hm
  · rw [if_neg h0] at h
    rcases hch : extractChunks text c o with e | chunks
    · rw [hch] at h
      cases h
    · rw [hch] at h
      dsimp only at h
      by_cases hne : chunks = []
      · rw [if_pos hne] at h
        obtain rfl := Except.ok.inj h
        cases hm
      · rw [if_neg hne] at h
        obtain rfl := Except.ok.inj h
        have hce : chunkEmbsD enc text c o = chunks.map enc := by
          rw [chunkEmbsD, hch]
        have hm2 := List.mem_of_mem_take hm
        rcases List.mem_map.mp hm2 with ⟨it, hit, htup⟩
        have hitd : it ∈ buildSimDict nrm (chunks.map enc) thr vocab :=
          (perm_sortDescBy (fun it => it.2.max_sim) _).mem_iff.mp hit
        rcases mem_foldl_simStep hitd with habs | ⟨s, hs, h1, h2, h3⟩
        · cases habs
        · refine ⟨s, hs, ?_, ?_, by rw [hce]; exact h2, ?_⟩
          · rw [← htup]
            exact h1
          · rw [← htup]
            exact (congrArg SimEntry.skill_id h3).symm
          · rw [← htup, hce]
            exact congrArg SimEntry.max_sim h3

/-! Helper lemmas about the truncated sorted match list. -/

theorem outList_names_nodup (nrm : List ℚ → ℚ) (cembs : List (List ℚ)) (thr : ℚ)
    (vocab : List Skill) (k : Nat) :
    ((((sortDescBy (fun it => it.2.max_sim) (buildSimDict nrm cembs thr vocab)).map
        (fun it => (it.2.skill_id, it.1, it.2.max_sim))).take k).map
      (fun m => m.2.1)).Nodup := by
  rw [List.map_take, List.map_map]
  have hkeys : (dictKeys (buildSimDict nrm cembs thr vocab)).Nodup :=
    nodup_dictKeys_buildSimDict nrm cembs thr vocab
  have hperm := perm_sortDescBy (fun it : String × SimEntry => it.2.max_sim)
    (buildSimDict nrm cembs thr vocab)
  have h2 : ((sortDescBy (fun it : String × SimEntry => it.2.max_sim)
      (buildSimDict nrm cembs thr vocab)).map Prod.fst).Nodup :=
    (hperm.map Prod.fst).nodup_iff.mpr (by simpa only [dictKeys] using hkeys)
  exact (List.take_sublist _ _).nodup h2

theorem outList_sorted (nrm : List ℚ → ℚ) (cembs : List (List ℚ)) (thr : ℚ)
    (vocab : List Skill) (k : Nat) :
    (((sortDescBy (fun it => it.2.max_sim) (buildSimDict nrm cembs thr vocab)).map
        (fun it => (it.2.skill_id, it.1, it.2.max_sim))).take k).Pairwise
      (fun a b => b.2.2 ≤ a.2.2) := by
  refine List.Pairwise.sublist (List.take_sublist _ _) ?_
  rw [List.pairwise_map]
  exact pairwise_sortDescBy (fun it : String × SimEntry => it.2.max_sim) _

theorem outList_length_le_qual (nrm : List ℚ → ℚ) (cembs : List (List ℚ)) (thr : ℚ)
    (vocab : List Skill) (k : Nat) :
    (((sortDescBy (fun it => it.2.max_sim) (buildSimDict nrm cembs thr vocab)).map
        (fun it => (it.2.skill_id, it.1, it.2.max_sim))).take k).length ≤
      (vocab.filter (skillQual nrm cembs thr)).length := by
  have h1 : (((sortDescBy (fun it => it.2.max_sim)
        (buildSimDict nrm cembs thr vocab)).map
      (fun it => (it.2.skill_id, it.1, it.2.max_sim))).take k).length ≤
        (buildSimDict nrm cembs thr vocab).length := by
    rw [List.length_take, List.length_map,
      (perm_sortDescBy (fun it : String × SimEntry => it.2.max_sim) _).length_eq]
    exact min_le_right _ _
  refine h1.trans ?_
  have h2 := length_foldl_simStep nrm cembs thr vocab []
  simpa using h2

/-! Claim theorems. -/

/-- Claim C2: for every document and parameters with
overlap < chunk_size the chunker produces exactly
ceil(w / (chunk_size - overlap)) chunks (Nat ceiling division written as
(w + s - 1) / s), the j-th chunk being the window
words[j*s : j*s + chunk_size] joined by single spaces; the analyzer
feeds exactly this chunk list to the matcher, and an empty or
whitespace-only document (no words) makes the matcher return an empty
match list. -/
theorem chunk_count_and_empty_doc (enc : String → List ℚ) (nrm : List ℚ → ℚ)
    (text : String) (vocab : List Skill) (top_k : Nat) (thr : ℚ)
    (chunk_size chunk_overlap : Nat) (h : chunk_overlap < chunk_size) :
    (chunkText (pySplit text) chunk_size (chunk_size - chunk_overlap)).length =
      ((pySplit text).length + (chunk_size - chunk_overlap) - 1) /
        (chunk_size - chunk_overlap)
    ∧ chunkText (pySplit text) chunk_size (chunk_size - chunk_overlap) =
        (List.range (((pySplit text).length + (chunk_size - chunk_overlap) - 1) /
            (chunk_size - chunk_overlap))).map
          (fun j => String.intercalate " "
            (((pySplit text).drop (j * (chunk_size - chunk_overlap))).take chunk_size))
    ∧ extractChunks text chunk_size chunk_overlap =
        Except.ok (chunkText (pySplit text) chunk_size (chunk_size - chunk_overlap))
    ∧ (pySplit text = [] →
        extract_skills_from_text enc nrm text vocab top_k thr chunk_size chunk_overlap =
          Except.ok []) := by
  have hs : 1 ≤ chunk_size - chunk_overlap := by omega
  have hch : extractChunks text chunk_size chunk_overlap =
      Except.ok (chunkText (pySplit text) chunk_size (chunk_size - chunk_overlap)) := by
    simp only [extractChunks]
    rw [if_neg (by omega), if_neg (by omega)]
    have ht : ((chunk_size : Int) - (chunk_overlap : Int)).toNat =
        chunk_size - chunk_overlap := by omega
    rw [ht]
  refine ⟨length_chunkText _ _ _ hs, chunkText_eq _ _ _ hs, hch, ?_⟩
  intro hsplit
  have hcnil : chunkText (pySplit text) chunk_size (chunk_size - chunk_overlap) = [] := by
    rw [hsplit]
    rfl
  rw [extract_skills_from_text]
  by_cases h0 : text = "" ∨ vocab = []
  · rw [if_pos h0]
  · rw [if_neg h0, hch, hcnil]
    rfl

/-- Claim C2 witness: for the spec scenario text with chunk size 100 and
overlap 20 the chunk count formula of the claim theorem evaluates to a
single chunk. -/
theorem chunk_count_and_empty_doc_witness :
    (chunkText (pySplit "python django sql") 100 (100 - 20)).length =
      ((pySplit "python django sql").length + (100 - 20) - 1) / (100 - 20)
    ∧ (chunkText (pySplit "python django sql") 100 (100 - 20)).length = 1 := by
  have h := chunk_count_and_empty_doc encConst normSq "python django sql" vocabBasic
    20 0 100 20 (by decide)
  exact ⟨h.1, by decide⟩

/-- Claim C3 counterexample: a call with overlap strictly greater than
chunk_size on a nonempty document and nonempty vocabulary is not
rejected with any error; it silently succeeds with an empty match
list. -/
theorem overlap_gt_chunk_size_silent_cex :
    extract_skills_from_text encConst normSq "x" vocabBasic 20 0 1 2 = Except.ok []
    ∧ "x" ≠ ("" : String) ∧ vocabBasic ≠ [] := by
  refine ⟨by decide, by decide, by decide⟩

/-- Claim C3 (amended): a call with overlap strictly greater than
chunk_size silently returns an empty match list for every input (the
negative range step yields no chunks); a call with overlap equal to
chunk_size on a nonempty document and nonempty vocabulary raises the
untyped ValueError coming from range(), not a dedicated
InvalidChunkParameters error; no call diverges, the function being
total. -/
theorem overlap_ge_chunk_size_behavior (enc : String → List ℚ) (nrm : List ℚ → ℚ)
    (text : String) (vocab : List Skill) (top_k : Nat) (thr : ℚ)
    (chunk_size chunk_overlap : Nat) :
    (chunk_size < chunk_overlap →
      extract_skills_from_text enc nrm text vocab top_k thr chunk_size chunk_overlap =
        Except.ok [])
    ∧ (chunk_overlap = chunk_size → text ≠ "" → vocab ≠ [] →
        extract_skills_from_text enc nrm text vocab top_k thr chunk_size chunk_overlap =
          Except.error PyErr.valueError) := by
  constructor
  · intro hco
    rw [extract_skills_from_text]
    by_cases h0 : text = "" ∨ vocab = []
    · rw [if_pos h0]
    · rw [if_neg h0]
      simp only [extractChunks]
      rw [if_neg (by omega), if_pos (by omega)]
      rfl
  · intro hoc htext hvocab
    rw [extract_skills_from_text, if_neg (by simp [htext, hvocab])]
    simp only [extractChunks]
    rw [if_pos (by omega)]

/-- Claim C3 witness: the amended theorem applied at overlap 2 against
chunk size 1 (silent empty success) and at overlap equal to chunk
size 1 (ValueError). -/
theorem overlap_ge_chunk_size_behavior_witness :
    extract_skills_from_text encConst normSq "x" vocabBasic 20 0 1 2 = Except.ok []
    ∧ extract_skills_from_text encConst normSq "x" vocabBasic 20 0 1 1 =
        Except.error PyErr.valueError :=
  ⟨(overlap_ge_chunk_size_behavior encConst normSq "x" vocabBasic 20 0 1 2).1
      (by decide),
    (overlap_ge_chunk_size_behavior encConst normSq "x" vocabBasic 20 0 1 1).2 rfl
      (by decide) (by decide)⟩

/-- Claim C1 counterexample: with a vocabulary carrying one skill id
under two different names, both qualifying, the match list repeats the
skill id, so the output can contain duplicate skill ids. -/
theorem extract_dup_skill_ids_cex :
    extract_skills_from_text encConst normSq "x" vocabDupIds 5 0 5 0 =
      Except.ok [(1, "a", 1), (1, "b", 1)]
    ∧ ¬ (([((1 : Nat), "a", (1 : ℚ)), (1, "b", 1)]).map (fun m => m.1)).Nodup := by
  constructor
  · have hch : extractChunks "x" 5 0 = Except.ok ["x"] := by decide
    have h1 : ("x" : String) ≠ "" := by decide
    rw [extract_skills_from_text, hch]
    norm_num [buildSimDict, simStep, scoreSkillEmb, cosSim, npMax, rmax, dotQ, normSq,
      dictSet, sortDescBy, insertDescBy, encConst, vocabDupIds, List.cons_ne_nil, h1]
  · decide

/-- Claim C1 (amended): every successful `extract_skills_from_text`
result has pairwise distinct skill names — and pairwise distinct skill
ids as soon as the vocabulary rows carry distinct ids — is sorted by
non-increasing score, and its length is at most top_k and at most the
number of qualifying vocabulary rows; on the main branch the output is
the top_k prefix of the stable descending sort of the similarity dict,
equal-score runs keep the dict order, and the dict key sequence is the
first-occurrence deduplication of the qualifying skill names in
vocabulary order (so ties are broken by original vocabulary order). -/
theorem extract_match_list_invariants (enc : String → List ℚ) (nrm : List ℚ → ℚ)
    (text : String) (vocab : List Skill) (top_k : Nat) (thr : ℚ) (c o : Nat)
    (out : List (Nat × String × ℚ))
    (h : extract_skills_from_text enc nrm text vocab top_k thr c o = Except.ok out) :
    (out.map (fun m => m.2.1)).Nodup
    ∧ ((vocab.map Skill.skill_id).Nodup → (out.map (fun m => m.1)).Nodup)
    ∧ out.Pairwise (fun a b => b.2.2 ≤ a.2.2)
    ∧ out.length ≤ top_k
    ∧ out.length ≤ (vocab.filter (skillQual nrm (chunkEmbsD enc text c o) thr)).length
    ∧ (∀ chunks, extractChunks text c o = Except.ok chunks → chunks ≠ [] →
        text ≠ "" → vocab ≠ [] →
        out = ((sortDescBy (fun it => it.2.max_sim)
            (buildSimDict nrm (chunks.map enc) thr vocab)).map
          (fun it => (it.2.skill_id, it.1, it.2.max_sim))).take top_k
        ∧ (∀ q : ℚ, (sortDescBy (fun it => it.2.max_sim)
              (buildSimDict nrm (chunks.map enc) thr vocab)).filter
                (fun it => it.2.max_sim == q) =
            (buildSimDict nrm (chunks.map enc) thr vocab).filter
              (fun it => it.2.max_sim == q))
        ∧ dictKeys (buildSimDict nrm (chunks.map enc) thr vocab) =
            dedupFirstOcc ((vocab.filter (skillQual nrm (chunks.map enc) thr)).map
              Skill.name)) := by
  have hids : (out.map (fun m => m.2.1)).Nodup →
      (vocab.map Skill.skill_id).Nodup → (out.map (fun m => m.1)).Nodup := by
    intro hnames hvids
    have hp1 : out.Pairwise (fun a b => a.2.1 ≠ b.2.1) := List.pairwise_map.mp hnames
    have hp2 : out.Pairwise (fun a b => a.1 ≠ b.1) := by
      refine hp1.imp_of_mem ?_
      intro a b ha hb hne heq
      rcases extract_mem h ha with ⟨sa, hsa, hna, hia, _⟩
      rcases extract_mem h hb with ⟨sb, hsb, hnb, hib, _⟩
      have hsasb : sa = sb :=
        List.inj_on_of_nodup_map hvids hsa hsb (by rw [hia, hib, heq])
      exact hne (by rw [← hna, ← hnb, hsasb])
    exact List.pairwise_map.mpr hp2
  by_cases h0 : text = "" ∨ vocab = []
  · rw [extract_skills_from_text, if_pos h0] at h
    obtain rfl := Except.ok.inj h
    refine ⟨by simp, fun hv => by simp, by simp, by simp, by simp, ?_⟩
    intro chunks _ _ htext2 hvocab2
    rcases h0 with h0 | h0
    · exact absurd h0 htext2
    · exact absurd h0 hvocab2
  · push_neg at h0
    rcases hch : extractChunks text c o with e | chunks0
    · rw [extract_skills_from_text, if_neg (by simp [h0.1, h0.2]), hch] at h
      cases h
    · by_cases hne : chunks0 = []
      · subst hne
        rw [extract_skills_from_text, if_neg (by simp [h0.1, h0.2]), hch] at h
        dsimp only at h
        rw [if_pos rfl] at h
        obtain rfl := Except.ok.inj h
        refine ⟨by simp, fun hv => by simp, by simp, by simp, by simp, ?_⟩
        intro chunks hch2 hne2 _ _
        exact absurd (Except.ok.inj hch2).symm hne2
      · have hmb := extract_main_branch enc nrm text vocab top_k thr c o chunks0
          h0.1 h0.2 hch hne
        rw [hmb] at h
        obtain rfl := Except.ok.inj h
        have hce : chunkEmbsD enc text c o = chunks0.map enc := by
          rw [chunkEmbsD, hch]
        have hn := outList_names_nodup nrm (chunks0.map enc) thr vocab top_k
        refine ⟨hn, hids hn, outList_sorted nrm (chunks0.map enc) thr vocab top_k,
          List.length_take_le _ _, ?_, ?_⟩
        · rw [hce]
          exact outList_length_le_qual nrm (chunks0.map enc) thr vocab top_k
        · intro chunks hch2 hne2 _ _
          obtain rfl := Except.ok.inj hch2
          exact ⟨rfl,
            fun q => filter_sortDescBy (fun it : String × SimEntry => it.2.max_sim)
              (buildSimDict nrm (chunks0.map enc) thr vocab) q,
            dictKeys_buildSimDict nrm (chunks0.map enc) thr vocab⟩

/-- Claim C1 witness: the amended theorem applied at a concrete
embedder, norm, document and vocabulary, together with the concrete
extract result the hypothesis is discharged with. -/
theorem extract_match_list_invariants_witness :
    extract_skills_from_text encConst normSq "t" vocabBasic 5 0 5 0 =
      Except.ok [(1, "s1", (1 : ℚ)), (2, "s2", 0)]
    ∧ ([((1 : Nat), "s1", (1 : ℚ)), (2, "s2", 0)].map (fun m => m.2.1)).Nodup
    ∧ [((1 : Nat), "s1", (1 : ℚ)), (2, "s2", 0)].Pairwise (fun a b => b.2.2 ≤ a.2.2) := by
  have hok : extract_skills_from_text encConst normSq "t" vocabBasic 5 0 5 0 =
      Except.ok [(1, "s1", (1 : ℚ)), (2, "s2", 0)] := by
    have hch : extractChunks "t" 5 0 = Except.ok ["t"] := by decide
    have h1 : ("t" : String) ≠ "" := by decide
    rw [extract_skills_from_text, hch]
    norm_num [buildSimDict, simStep, scoreSkillEmb, cosSim, npMax, rmax, dotQ, normSq,
      dictSet, sortDescBy, insertDescBy, encConst, vocabBasic, List.cons_ne_nil, h1]
  have h := extract_match_list_invariants encConst normSq "t" vocabBasic 5 0 5 0 _ hok
  exact ⟨hok, h.1, h.2.2.1⟩

theorem rmax_nan_left (x : RFloat) : rmax RFloat.nan x = RFloat.nan := by
  cases x <;> rfl

theorem foldl_rmax_nan (l : List RFloat) : l.foldl rmax RFloat.nan = RFloat.nan := by
  induction l with
  | nil => rfl
  | cons x xs ih =>
    rw [List.foldl_cons, rmax_nan_left]
    exact ih

/-- A zero-norm skill embedding makes every chunk similarity NaN, and
`np.max` propagates the NaN. -/
theorem scoreSkillEmb_nan_of_zero (nrm : List ℚ → ℚ) (cembs : List (List ℚ))
    (v : List ℚ) (hnv : nrm v = 0) : scoreSkillEmb nrm cembs v = RFloat.nan := by
  rw [scoreSkillEmb]
  have hall : cembs.map (fun ce => cosSim nrm ce v) = cembs.map (fun _ => RFloat.nan) := by
    refine List.map_congr_left (fun ce _ => ?_)
    rw [cosSim, if_pos (by rw [hnv, mul_zero])]
  rw [hall]
  cases cembs with
  | nil => rfl
  | cons a tl =>
    rw [List.map_cons, npMax]
    exact foldl_rmax_nan _

theorem skillQual_true_elim {nrm : List ℚ → ℚ} {cembs : List (List ℚ)} {thr : ℚ}
    {s : Skill} (h : skillQual nrm cembs thr s = true) :
    ∃ emb, s.emb_array = some emb ∧ (emb.length == 0) = false ∧
      scoreSkillEmb nrm cembs emb = RFloat.val (qScore nrm cembs s) ∧
      thr ≤ qScore nrm cembs s := by
  rcases hemb : s.emb_array with _ | emb
  · simp [skillQual, hemb] at h
  · by_cases hlen : (emb.length == 0) = true
    · simp [skillQual, hemb, hlen] at h
    · rcases hsc : scoreSkillEmb nrm cembs emb with _ | q
      · simp [skillQual, hemb, hlen, hsc] at h
      · have hqv : qScore nrm cembs s = q := by
          simp [qScore, hemb, hsc]
        refine ⟨emb, rfl, by simpa using hlen, by rw [hqv, hsc], ?_⟩
        rw [hqv]
        simpa [skillQual, hemb, hlen, hsc] using h

/-- Claim C4: a vocabulary entry whose embedding has zero magnitude is
skipped for every threshold: under any norm function vanishing exactly
on zero-magnitude vectors and a vocabulary with distinct names, the
zero-norm entry never appears in the match list, and every reported
score is the genuine non-NaN maximum chunk similarity of some
vocabulary row, so no NaN is propagated into the output. -/
theorem zero_norm_skill_skipped (enc : String → List ℚ) (nrm : List ℚ → ℚ)
    (text : String) (vocab : List Skill) (top_k : Nat) (thr : ℚ) (c o : Nat)
    (out : List (Nat × String × ℚ)) (s0 : Skill) (v : List ℚ)
    (hz : ∀ w, nrm w = 0 ↔ normSq w = 0)
    (hnames : (vocab.map Skill.name).Nodup)
    (hs0 : s0 ∈ vocab) (hemb : s0.emb_array = some v) (hv : normSq v = 0)
    (h : extract_skills_from_text enc nrm text vocab top_k thr c o = Except.ok out) :
    (∀ m ∈ out, m.2.1 ≠ s0.name)
    ∧ (∀ m ∈ out, ∃ s ∈ vocab, s.name = m.2.1 ∧ ∃ emb, s.emb_array = some emb ∧
        scoreSkillEmb nrm (chunkEmbsD enc text c o) emb = RFloat.val m.2.2) := by
  have hnan := scoreSkillEmb_nan_of_zero nrm (chunkEmbsD enc text c o) v ((hz v).mpr hv)
  have hqual0 : skillQual nrm (chunkEmbsD enc text c o) thr s0 = false := by
    simp [skillQual, hemb, hnan]
  constructor
  · intro m hm heq
    rcases extract_mem h hm with ⟨s, hs, hname, _, hqual, _⟩
    have hss0 : s = s0 :=
      List.inj_on_of_nodup_map hnames hs hs0 (by rw [hname, heq])
    rw [hss0, hqual0] at hqual
    cases hqual
  · intro m hm
    rcases extract_mem h hm with ⟨s, hs, hname, _, hqual, hscore⟩
    rcases skillQual_true_elim hqual with ⟨emb, hse, _, hsc, _⟩
    exact ⟨s, hs, hname, emb, hse, by rw [hsc, ← hscore]⟩

/-- Claim C4 witness: the theorem applied at a concrete vocabulary whose
first entry carries the zero vector as embedding; the entry is absent
from the concrete match list. -/
theorem zero_norm_skill_skipped_witness :
    extract_skills_from_text encConst normSq "t" vocabZero 5 0 5 0 =
      Except.ok [(2, "ok", (1 : ℚ))]
    ∧ ∀ m ∈ [((2 : Nat), "ok", (1 : ℚ))], m.2.1 ≠ "zero" := by
  have hok : extract_skills_from_text encConst normSq "t" vocabZero 5 0 5 0 =
      Except.ok [(2, "ok", (1 : ℚ))] := by
    have hch : extractChunks "t" 5 0 = Except.ok ["t"] := by decide
    have h1 : ("t" : String) ≠ "" := by decide
    rw [extract_skills_from_text, hch]
    norm_num [buildSimDict, simStep, scoreSkillEmb, cosSim, npMax, rmax, dotQ, normSq,
      dictSet, sortDescBy, insertDescBy, encConst, vocabZero, List.cons_ne_nil, h1]
  have h := zero_norm_skill_skipped encConst normSq "t" vocabZero 5 0 5 0 _
    ⟨1, "zero", some [0, 0]⟩ [0, 0] (fun w => Iff.rfl) (by decide) (by decide) rfl
    (by norm_num [normSq]) hok
  exact ⟨hok, h.1⟩

/-- Claim C10: the matcher deduplicates by skill name, and within one
name the later vocabulary row wins.  With exactly two rows named n, both
qualifying, the full sorted match list contains exactly one match named
n, carrying the skill id and the score of the later row (even when the
earlier row scored higher), and the truncated output contains at most
that one match for n. -/
theorem dedup_by_name_last_entry_wins (enc : String → List ℚ) (nrm : List ℚ → ℚ)
    (text : String) (l1 l2 l3 : List Skill) (e1 e2 : Skill) (n : String)
    (top_k : Nat) (thr : ℚ) (c o : Nat) (out : List (Nat × String × ℚ))
    (chunks : List String)
    (hn1 : e1.name = n) (hn2 : e2.name = n)
    (hothers : ∀ s ∈ l1 ++ l2 ++ l3, s.name ≠ n)
    (htext : text ≠ "")
    (hch : extractChunks text c o = Except.ok chunks) (hne : chunks ≠ [])
    (hq1 : skillQual nrm (chunks.map enc) thr e1 = true)
    (hq2 : skillQual nrm (chunks.map enc) thr e2 = true)
    (h : extract_skills_from_text enc nrm text (l1 ++ e1 :: (l2 ++ e2 :: l3)) top_k thr
      c o = Except.ok out) :
    ((sortDescBy (fun it => it.2.max_sim)
        (buildSimDict nrm (chunks.map enc) thr (l1 ++ e1 :: (l2 ++ e2 :: l3)))).map
      (fun it => (it.2.skill_id, it.1, it.2.max_sim))).filter
        (fun m => m.2.1 == n) =
      [(e2.skill_id, n, qScore nrm (chunks.map enc) e2)]
    ∧ (out.filter (fun m => m.2.1 == n)).length ≤ 1
    ∧ ∀ m ∈ out, m.2.1 = n →
        m = (e2.skill_id, n, qScore nrm (chunks.map enc) e2) := by
  have hothers1 : ∀ s ∈ l1, s.name ≠ n := fun s hs => hothers s (by simp [hs])
  have hothers2 : ∀ s ∈ l2, s.name ≠ n := fun s hs => hothers s (by simp [hs])
  have hothers3 : ∀ s ∈ l3, s.name ≠ n := fun s hs => hothers s (by simp [hs])
  have hD : buildSimDict nrm (chunks.map enc) thr (l1 ++ e1 :: (l2 ++ e2 :: l3)) =
      l3.foldl (simStep nrm (chunks.map enc) thr)
        (simStep nrm (chunks.map enc) thr
          (l2.foldl (simStep nrm (chunks.map enc) thr)
            (simStep nrm (chunks.map enc) thr
              (l1.foldl (simStep nrm (chunks.map enc) thr) []) e1)) e2) := by
    rw [buildSimDict, List.foldl_append, List.foldl_cons, List.foldl_append,
      List.foldl_cons]
  have hd1keys : n ∉ dictKeys (l1.foldl (simStep nrm (chunks.map enc) thr) []) := by
    intro hmem
    rcases mem_dictKeys_foldl_simStep.mp hmem with hk | ⟨s, hs, hname, _⟩
    · simp [dictKeys] at hk
    · exact hothers1 s hs hname
  have hd2 : simStep nrm (chunks.map enc) thr
      (l1.foldl (simStep nrm (chunks.map enc) thr) []) e1 =
      dictSet (l1.foldl (simStep nrm (chunks.map enc) thr) []) n
        ⟨e1.skill_id, qScore nrm (chunks.map enc) e1⟩ := by
    rw [simStep_eq, if_pos hq1, hn1]
  have hnd1 : (dictKeys (l1.foldl (simStep nrm (chunks.map enc) thr) [])).Nodup :=
    nodup_dictKeys_foldl_simStep _ _ _ _ _ List.nodup_nil
  have hnd2 : (dictKeys (simStep nrm (chunks.map enc) thr
      (l1.foldl (simStep nrm (chunks.map enc) thr) []) e1)).Nodup := by
    rw [hd2]
    exact nodup_dictKeys_dictSet _ _ hnd1
  have hnd3 : (dictKeys (l2.foldl (simStep nrm (chunks.map enc) thr)
      (simStep nrm (chunks.map enc) thr
        (l1.foldl (simStep nrm (chunks.map enc) thr) []) e1))).Nodup :=
    nodup_dictKeys_foldl_simStep _ _ _ _ _ hnd2
  have hstep4 : simStep nrm (chunks.map enc) thr
      (l2.foldl (simStep nrm (chunks.map enc) thr)
        (simStep nrm (chunks.map enc) thr
          (l1.foldl (simStep nrm (chunks.map enc) thr) []) e1)) e2 =
      dictSet (l2.foldl (simStep nrm (chunks.map enc) thr)
        (simStep nrm (chunks.map enc) thr
          (l1.foldl (simStep nrm (chunks.map enc) thr) []) e1)) n
        ⟨e2.skill_id, qScore nrm (chunks.map enc) e2⟩ := by
    rw [simStep_eq, if_pos hq2, hn2]
  have hmemD : (n, (⟨e2.skill_id, qScore nrm (chunks.map enc) e2⟩ : SimEntry)) ∈
      buildSimDict nrm (chunks.map enc) thr (l1 ++ e1 :: (l2 ++ e2 :: l3)) := by
    rw [hD, foldl_simStep_key_frozen hothers3, hstep4]
    exact (dictSet_mem_self hnd3).mpr rfl
  have hndD : (dictKeys (buildSimDict nrm (chunks.map enc) thr
      (l1 ++ e1 :: (l2 ++ e2 :: l3)))).Nodup := by
    rw [hD]
    refine nodup_dictKeys_foldl_simStep _ _ _ _ _ ?_
    rw [hstep4]
    exact nodup_dictKeys_dictSet _ _ hnd3
  have hfilterD : (buildSimDict nrm (chunks.map enc) thr
      (l1 ++ e1 :: (l2 ++ e2 :: l3))).filter (fun p => p.1 == n) =
      [(n, ⟨e2.skill_id, qScore nrm (chunks.map enc) e2⟩)] :=
    filter_key_eq_singleton hndD hmemD
  have hsortfilter : (sortDescBy (fun it => it.2.max_sim)
      (buildSimDict nrm (chunks.map enc) thr
        (l1 ++ e1 :: (l2 ++ e2 :: l3)))).filter (fun p => p.1 == n) =
      [(n, ⟨e2.skill_id, qScore nrm (chunks.map enc) e2⟩)] := by
    have hperm := (perm_sortDescBy (fun it : String × SimEntry => it.2.max_sim)
      (buildSimDict nrm (chunks.map enc) thr
        (l1 ++ e1 :: (l2 ++ e2 :: l3)))).filter (fun p => p.1 == n)
    rw [hfilterD] at hperm
    exact List.perm_singleton.mp hperm
  have hmapfilter : ((sortDescBy (fun it => it.2.max_sim)
      (buildSimDict nrm (chunks.map enc) thr
        (l1 ++ e1 :: (l2 ++ e2 :: l3)))).map
      (fun it => (it.2.skill_id, it.1, it.2.max_sim))).filter
        (fun m => m.2.1 == n) =
      [(e2.skill_id, n, qScore nrm (chunks.map enc) e2)] := by
    rw [List.filter_map]
    show ((sortDescBy (fun it => it.2.max_sim)
        (buildSimDict nrm (chunks.map enc) thr
          (l1 ++ e1 :: (l2 ++ e2 :: l3)))).filter (fun p => p.1 == n)).map
        (fun it => (it.2.skill_id, it.1, it.2.max_sim)) = _
    rw [hsortfilter]
    rfl
  have hvne : l1 ++ e1 :: (l2 ++ e2 :: l3) ≠ [] := by simp
  have hmb := extract_main_branch enc nrm text (l1 ++ e1 :: (l2 ++ e2 :: l3)) top_k thr
    c o chunks htext hvne hch hne
  rw [hmb] at h
  obtain rfl := Except.ok.inj h
  have hsub := (List.take_sublist top_k
    ((sortDescBy (fun it => it.2.max_sim)
      (buildSimDict nrm (chunks.map enc) thr
        (l1 ++ e1 :: (l2 ++ e2 :: l3)))).map
      (fun it => (it.2.skill_id, it.1, it.2.max_sim)))).filter
    (fun m => m.2.1 == n)
  rw [hmapfilter] at hsub
  refine ⟨hmapfilter, ?_, ?_⟩
  · have := hsub.length_le
    simpa using this
  · intro m hm hmn
    have hmf : m ∈ (((sortDescBy (fun it => it.2.max_sim)
        (buildSimDict nrm (chunks.map enc) thr
          (l1 ++ e1 :: (l2 ++ e2 :: l3)))).map
        (fun it => (it.2.skill_id, it.1, it.2.max_sim))).take top_k).filter
          (fun m => m.2.1 == n) :=
      List.mem_filter.mpr ⟨hm, by simp [hmn]⟩
    have := hsub.subset hmf
    simpa using this

/-- Claim C10 witness: the theorem applied at a concrete vocabulary with
the name n twice, the earlier row scoring 1 and the later row scoring 0
against the constant embedder; the output carries the later id and
score. -/
theorem dedup_by_name_last_entry_wins_witness :
    extract_skills_from_text encConst normSq "t" vocabNameTwice 5 0 5 0 =
      Except.ok [(2, "n", (0 : ℚ))]
    ∧ ∀ m ∈ [((2 : Nat), "n", (0 : ℚ))], m.2.1 = "n" →
        m = (2, "n", qScore normSq (["t"].map encConst) ⟨2, "n", some [0, 1]⟩) := by
  have hok : extract_skills_from_text encConst normSq "t" vocabNameTwice 5 0 5 0 =
      Except.ok [(2, "n", (0 : ℚ))] := by
    have hch : extractChunks "t" 5 0 = Except.ok ["t"] := by decide
    have h1 : ("t" : String) ≠ "" := by decide
    rw [extract_skills_from_text, hch]
    norm_num [buildSimDict, simStep, scoreSkillEmb, cosSim, npMax, rmax, dotQ, normSq,
      dictSet, sortDescBy, insertDescBy, encConst, vocabNameTwice, List.cons_ne_nil, h1]
  have h := dedup_by_name_last_entry_wins encConst normSq "t" [] [] []
    ⟨1, "n", some [1, 0]⟩ ⟨2, "n", some [0, 1]⟩ "n" 5 0 5 0 _ ["t"]
    rfl rfl (by simp) (by decide) (by decide) (by decide)
    (by norm_num [skillQual, scoreSkillEmb, cosSim, npMax, rmax, dotQ, normSq, encConst])
    (by norm_num [skillQual, scoreSkillEmb, cosSim, npMax, rmax, dotQ, normSq, encConst])
    hok
  exact ⟨hok, h.2.2⟩

theorem intercalate_singleton (w : String) : String.intercalate " " [w] = w := rfl

theorem chunkText_single (w : String) (c s : Nat) (hc : 1 ≤ c) (hs : 1 ≤ s) :
    chunkText [w] c s = [w] := by
  rw [chunkText_eq _ _ _ hs]
  have h1 : (([w] : List String).length + s - 1) / s = 1 := by
    simp only [List.length_singleton]
    have h2 : 1 + s - 1 = s := by omega
    rw [h2, Nat.div_self (by omega)]
  rw [h1, show List.range 1 = [0] from rfl, List.map_singleton, Nat.zero_mul,
    List.drop_zero, List.take_of_length_le (by simpa using hc),
    intercalate_singleton]

/-- Claim C5 counterexample: no tuning of the resume-side parameters
makes the job-linking loop coincide with the resume matching engine on
every input: linking never deduplicates by name, so a vocabulary with
one name twice links two rows while the matcher reports at most one. -/
theorem same_engine_claim_false : ¬ sameEngineClaim := by
  rintro ⟨k, c, o, h⟩
  rcases h encConst normSq "t" vocabDupNames 0 with ⟨out, hok, heq⟩
  have hlink : linkJobSkills encConst normSq "t" vocabDupNames 0 = [(1, 1), (2, 1)] := by
    norm_num [linkJobSkills, cosSim, dotQ, normSq, encConst, vocabDupNames,
      List.cons_ne_nil]
  rw [hlink] at heq
  rcases Nat.lt_trichotomy c o with hco | hco | hco
  · have hex : extract_skills_from_text encConst normSq "t" vocabDupNames k 0 c o =
        Except.ok [] := by
      rw [extract_skills_from_text, if_neg (by decide)]
      simp only [extractChunks]
      rw [if_neg (by omega), if_pos (by omega)]
      rfl
    rw [hex] at hok
    obtain rfl := Except.ok.inj hok
    simp at heq
  · have hex : extract_skills_from_text encConst normSq "t" vocabDupNames k 0 c o =
        Except.error PyErr.valueError := by
      rw [extract_skills_from_text, if_neg (by decide)]
      simp only [extractChunks]
      rw [if_pos (by omega)]
    rw [hex] at hok
    cases hok
  · have hch : extractChunks "t" c o = Except.ok ["t"] := by
      simp only [extractChunks]
      rw [if_neg (by omega), if_neg (by omega)]
      have ht : ((c : Int) - (o : Int)).toNat = c - o := by omega
      rw [ht, show pySplit "t" = ["t"] from by decide,
        chunkText_single "t" c (c - o) (by omega) (by omega)]
    have hmb := extract_main_branch encConst normSq "t" vocabDupNames k 0 c o ["t"]
      (by decide) (by decide) hch (by simp)
    rw [hmb] at hok
    obtain rfl := Except.ok.inj hok
    have hD : buildSimDict normSq (List.map encConst ["t"]) 0 vocabDupNames =
        [("n", ⟨2, 1⟩)] := by
      norm_num [buildSimDict, simStep, scoreSkillEmb, cosSim, npMax, rmax, dotQ,
        normSq, dictSet, encConst, vocabDupNames, List.cons_ne_nil]
    rw [hD] at heq
    rcases k with _ | k
    · simp [sortDescBy, insertDescBy] at heq
    · simp [sortDescBy, insertDescBy] at heq

/-- Claim C5 (amended): the two call sites share the cosine scoring,
zero-or-absent-embedding skipping and threshold acceptance against the
cached vocabulary, but job linking embeds the whole posting as a single
string without chunking and applies no sorting, no per-name
deduplication and no top-k truncation; whenever the resume chunker
yields the whole text as its single chunk, the vocabulary names are
distinct and top_k is at least the vocabulary size, the two paths agree:
the matcher output carries exactly the (skill_id, score) rows the
linking loop inserts, as a permutation. -/
theorem single_chunk_engine_agreement (enc : String → List ℚ) (nrm : List ℚ → ℚ)
    (text : String) (vocab : List Skill) (top_k : Nat) (thr : ℚ) (c o : Nat)
    (htext : text ≠ "") (hvocab : vocab ≠ [])
    (hchunk : extractChunks text c o = Except.ok [text])
    (hnames : (vocab.map Skill.name).Nodup)
    (hk : vocab.length ≤ top_k) :
    ∃ out, extract_skills_from_text enc nrm text vocab top_k thr c o = Except.ok out
      ∧ (out.map (fun m => (m.1, m.2.2))).Perm
          (linkJobSkills enc nrm text vocab thr) := by
  have hmb := extract_main_branch enc nrm text vocab top_k thr c o [text] htext hvocab
    hchunk (by simp)
  refine ⟨_, hmb, ?_⟩
  rw [show List.map enc [text] = [enc text] from rfl]
  have hDeq : buildSimDict nrm [enc text] thr vocab =
      (vocab.filter (skillQual nrm [enc text] thr)).map
        (fun s => (s.name, ⟨s.skill_id, qScore nrm [enc text] s⟩)) := by
    have hf := @foldl_simStep_of_fresh nrm [enc text] thr vocab ([] : SimDict) hnames
      (fun s _ => by simp [dictKeys])
    simpa [buildSimDict] using hf
  have hlen : ((sortDescBy (fun it => it.2.max_sim)
      (buildSimDict nrm [enc text] thr vocab)).map
        (fun it => (it.2.skill_id, it.1, it.2.max_sim))).length ≤ top_k := by
    rw [List.length_map,
      (perm_sortDescBy (fun it : String × SimEntry => it.2.max_sim) _).length_eq,
      hDeq, List.length_map]
    exact (List.length_filter_le _ _).trans hk
  rw [List.take_of_length_le hlen, List.map_map]
  have hperm := (perm_sortDescBy (fun it : String × SimEntry => it.2.max_sim)
    (buildSimDict nrm [enc text] thr vocab)).map
    ((fun m : Nat × String × ℚ => (m.1, m.2.2)) ∘
      (fun it : String × SimEntry => (it.2.skill_id, it.1, it.2.max_sim)))
  refine hperm.trans ?_
  rw [hDeq, List.map_map, linkJobSkills_eq_filter]
  exact List.Perm.refl _

/-- Claim C5 witness: the amended agreement theorem applied at a
concrete embedder, document and vocabulary where the whole document is
one chunk. -/
theorem single_chunk_engine_agreement_witness :
    ∃ out, extract_skills_from_text encConst normSq "t" vocabBasic 5 0 5 0 =
        Except.ok out
      ∧ (out.map (fun m => (m.1, m.2.2))).Perm
          (linkJobSkills encConst normSq "t" vocabBasic 0) :=
  single_chunk_engine_agreement encConst normSq "t" vocabBasic 5 0 5 0
    (by decide) (by decide) (by decide) (by decide) (by decide)

theorem foldl_append_rows (u : Nat) (ms : List (Nat × String × ℚ))
    (t : UserSkillsTable) :
    (ms.map (fun m => (fun tb : UserSkillsTable => tb ++ [⟨u, m.1, m.2.2⟩]))).foldl
      (fun acc f => f acc) t = t ++ ms.map (fun m => ⟨u, m.1, m.2.2⟩) := by
  induction ms generalizing t with
  | nil => simp
  | cons m ms ih =>
    rw [List.map_cons, List.foldl_cons, ih, List.map_cons, List.append_assoc,
      List.singleton_append]

/-- Claim C7: `save_user_skills` is atomic per user.  Every outcome is
either the untouched prior table (any statement failing mid-transaction
rolls the whole transaction back) or the fully committed state; the
committed state keeps exactly the rows of other users and replaces the
rows of the user by one row per matched skill, in list order — never an
incomplete mixture. -/
theorem save_user_skills_atomic (user_id : Nat)
    (matched_skills : List (Nat × String × ℚ)) (table : UserSkillsTable)
    (failAt : Option Nat) :
    (save_user_skills user_id matched_skills table failAt = table
      ∨ save_user_skills user_id matched_skills table failAt =
          table.filter (fun r => r.user_id != user_id) ++
            matched_skills.map (fun m => ⟨user_id, m.1, m.2.2⟩))
    ∧ (∀ kf, failAt = some kf → kf < 1 + matched_skills.length →
        save_user_skills user_id matched_skills table failAt = table)
    ∧ ((save_user_skills user_id matched_skills table none).filter
          (fun r => r.user_id == user_id) =
        matched_skills.map (fun m => ⟨user_id, m.1, m.2.2⟩)
      ∧ (save_user_skills user_id matched_skills table none).filter
          (fun r => r.user_id != user_id) =
        table.filter (fun r => r.user_id != user_id)) := by
  have hcommit : (userSkillStmts user_id matched_skills).foldl (fun acc f => f acc)
      table = table.filter (fun r => r.user_id != user_id) ++
        matched_skills.map (fun m => ⟨user_id, m.1, m.2.2⟩) := by
    rw [userSkillStmts, List.foldl_cons]
    exact foldl_append_rows user_id matched_skills _
  have hstlen : (userSkillStmts user_id matched_skills).length =
      1 + matched_skills.length := by
    rw [userSkillStmts, List.length_cons, List.length_map]
    omega
  have hnone : save_user_skills user_id matched_skills table none =
      table.filter (fun r => r.user_id != user_id) ++
        matched_skills.map (fun m => ⟨user_id, m.1, m.2.2⟩) := by
    rw [save_user_skills]
    exact hcommit
  have hrowsq : (matched_skills.map
      (fun m => (⟨user_id, m.1, m.2.2⟩ : UserSkillRow))).filter
        (fun r => r.user_id == user_id) =
      matched_skills.map (fun m => ⟨user_id, m.1, m.2.2⟩) := by
    rw [List.filter_eq_self]
    intro r hr
    rcases List.mem_map.mp hr with ⟨m, _, rfl⟩
    simp
  have hrowsne : (matched_skills.map
      (fun m => (⟨user_id, m.1, m.2.2⟩ : UserSkillRow))).filter
        (fun r => r.user_id != user_id) = [] := by
    rw [List.filter_eq_nil_iff]
    intro r hr
    rcases List.mem_map.mp hr with ⟨m, _, rfl⟩
    simp
  have htq : (table.filter (fun r => r.user_id != user_id)).filter
      (fun r => r.user_id == user_id) = [] := by
    rw [List.filter_eq_nil_iff]
    intro r hr
    have h2 := (List.mem_filter.mp hr).2
    simp at h2
    simp [h2]
  have htne : (table.filter (fun r => r.user_id != user_id)).filter
      (fun r => r.user_id != user_id) =
      table.filter (fun r => r.user_id != user_id) := by
    rw [List.filter_eq_self]
    intro r hr
    exact (List.mem_filter.mp hr).2
  refine ⟨?_, ?_, ?_⟩
  · rcases failAt with _ | kf
    · exact Or.inr hnone
    · rw [save_user_skills]
      by_cases hk : kf < (userSkillStmts user_id matched_skills).length
      · exact Or.inl (by rw [if_pos hk])
      · exact Or.inr (by rw [if_neg hk]; exact hcommit)
  · intro kf hkf hlt
    have hk2 : kf < (userSkillStmts user_id matched_skills).length := by
      rw [hstlen]
      omega
    rw [hkf, save_user_skills, if_pos hk2]
  · rw [hnone, List.filter_append, List.filter_append, hrowsq, hrowsne, htq, htne,
      List.nil_append, List.append_nil]
    exact ⟨rfl, rfl⟩

/-- Claim C7 witness: the theorem applied at a concrete table holding a
prior row for the user and a row of another user; the mid-transaction
failure keeps the prior table, the commit replaces the user rows. -/
theorem save_user_skills_atomic_witness :
    save_user_skills 7 [(1, "sql", (1 : ℚ))] [⟨7, 9, 1⟩, ⟨8, 3, 1⟩] (some 1) =
      [⟨7, 9, 1⟩, ⟨8, 3, 1⟩]
    ∧ (save_user_skills 7 [(1, "sql", (1 : ℚ))] [⟨7, 9, 1⟩, ⟨8, 3, 1⟩] none).filter
        (fun r => r.user_id == 7) = [(1, "sql", (1 : ℚ))].map (fun m => ⟨7, m.1, m.2.2⟩) := by
  have h := save_user_skills_atomic 7 [(1, "sql", (1 : ℚ))] [⟨7, 9, 1⟩, ⟨8, 3, 1⟩]
    (some 1)
  have h2 := save_user_skills_atomic 7 [(1, "sql", (1 : ℚ))] [⟨7, 9, 1⟩, ⟨8, 3, 1⟩] none
  exact ⟨h.2.1 1 rfl (by decide), h2.2.2.1⟩

/-- Claim C9: roadmap generation plans at most the first three missing
skills; with a nonempty skill list the batch always succeeds whatever
the LLM collaborator does on individual calls: the result is a
permutation of the independent per-skill outcomes, every slot is either
a structured plan or a structured error payload, and each failing
sub-call contributes its error payload without aborting the batch. -/
theorem generate_roadmap_isolation
    (llm : String → Nat → String → String → Except String String)
    (collect : List RoadmapSlot → List RoadmapSlot) (user_summary : String)
    (missing_skills : List (String × Nat)) (duration : String)
    (hc : ∀ l, (collect l).Perm l) (hne : missing_skills ≠ []) :
    (missing_skills.take 3).length ≤ 3
    ∧ ∃ res, generate_roadmap llm collect user_summary missing_skills duration =
        Except.ok res
      ∧ res.length = min 3 missing_skills.length
      ∧ res.Perm ((missing_skills.take 3).map
          (fun p => create_single_roadmap llm p.1 p.2 user_summary duration))
      ∧ (∀ r ∈ res, (∃ pl, r = RoadmapSlot.plan pl)
          ∨ ∃ msg det, r = RoadmapSlot.errorPayload msg det)
      ∧ (∀ p ∈ missing_skills.take 3, ∀ e,
          llm p.1 p.2 user_summary duration = Except.error e →
          RoadmapSlot.errorPayload ("Failed to generate roadmap for " ++ p.1) e ∈ res) := by
  refine ⟨List.length_take_le _ _, ?_⟩
  have hne2 : ¬ ((missing_skills.take 3).length = 0) := by
    rw [List.length_take]
    rcases missing_skills with _ | ⟨m, ms⟩
    · exact absurd rfl hne
    · simp only [List.length_cons]
      omega
  have hcp := hc ((missing_skills.take 3).map
    (fun p => create_single_roadmap llm p.1 p.2 user_summary duration))
  rw [generate_roadmap, if_neg hne2]
  refine ⟨_, rfl, ?_, hcp, ?_, ?_⟩
  · rw [hcp.length_eq, List.length_map, List.length_take]
  · intro r hr
    have hr2 := hcp.mem_iff.mp hr
    rcases List.mem_map.mp hr2 with ⟨p, _, rfl⟩
    rcases hl : llm p.1 p.2 user_summary duration with e | pl
    · exact Or.inr ⟨"Failed to generate roadmap for " ++ p.1, e,
        by rw [create_single_roadmap, hl]⟩
    · exact Or.inl ⟨pl, by rw [create_single_roadmap, hl]⟩
  · intro p hp e he
    refine hcp.mem_iff.mpr (List.mem_map.mpr ⟨p, hp, ?_⟩)
    rw [create_single_roadmap, he]

/-- Claim C9 witness: the theorem applied at a concrete LLM stub failing
on the first skill and succeeding on the second; the batch succeeds with
the structured error payload in the result. -/
theorem generate_roadmap_isolation_witness :
    ∃ res, generate_roadmap
        (fun skill _ _ _ =>
          if skill = "sql" then Except.error "boom" else Except.ok "plan")
        id "user" [("sql", 3), ("docker", 1)] "90 days" = Except.ok res
      ∧ RoadmapSlot.errorPayload ("Failed to generate roadmap for " ++ "sql") "boom" ∈
          res := by
  have h := generate_roadmap_isolation
    (fun skill _ _ _ =>
      if skill = "sql" then Except.error "boom" else Except.ok "plan")
    id "user" [("sql", 3), ("docker", 1)] "90 days"
    (fun l => List.Perm.refl l) (by decide)
  rcases h.2 with ⟨res, hres, _, _, _, herr⟩
  exact ⟨res, hres, herr ("sql", 3) (by decide) "boom" (by decide)⟩

/-! Helper lemmas about first-occurrence deduplication and the gap
query. -/

theorem mem_dedupFold {α : Type*} [DecidableEq α] (l : List α) (acc : List α) (x : α) :
    x ∈ l.foldl (fun acc y => if y ∈ acc then acc else acc ++ [y]) acc ↔
      x ∈ acc ∨ x ∈ l := by
  induction l generalizing acc with
  | nil => simp
  | cons y ys ih =>
    rw [List.foldl_cons]
    by_cases hy : y ∈ acc
    · rw [if_pos hy, ih]
      constructor
      · rintro (h | h)
        · exact Or.inl h
        · exact Or.inr (List.mem_cons_of_mem y h)
      · rintro (h | h)
        · exact Or.inl h
        · rcases List.mem_cons.mp h with rfl | h
          · exact Or.inl hy
          · exact Or.inr h
    · rw [if_neg hy, ih]
      simp only [List.mem_append, List.mem_cons, List.mem_singleton]
      tauto

theorem nodup_dedupFold {α : Type*} [DecidableEq α] (l : List α) (acc : List α)
    (h : acc.Nodup) :
    (l.foldl (fun acc y => if y ∈ acc then acc else acc ++ [y]) acc).Nodup := by
  induction l generalizing acc with
  | nil => exact h
  | cons y ys ih =>
    rw [List.foldl_cons]
    by_cases hy : y ∈ acc
    · rw [if_pos hy]
      exact ih _ h
    · rw [if_neg hy]
      refine ih _ ?_
      simpa [List.nodup_append] using ⟨h, hy⟩

theorem mem_dedupFirstOcc {α : Type*} [DecidableEq α] {l : List α} {x : α} :
    x ∈ dedupFirstOcc l ↔ x ∈ l := by
  rw [dedupFirstOcc, mem_dedupFold]
  simp

theorem nodup_dedupFirstOcc {α : Type*} [DecidableEq α] (l : List α) :
    (dedupFirstOcc l).Nodup :=
  nodup_dedupFold l [] List.nodup_nil

theorem mem_gapRows {db : GapDB} {user_id : Nat} {pattern : String}
    {r : Nat × String × Nat} :
    r ∈ gapRows db user_id pattern ↔
      ∃ s ∈ db.skills,
        (db.user_skills.any (fun us => us.user_id == user_id &&
          us.skill_id == s.skill_id)) = false
        ∧ ∃ js ∈ db.job_skills, js.skill_id = s.skill_id
        ∧ ∃ j ∈ db.jobs, j.job_id = js.job_id
        ∧ likeB pattern (lowerStr j.title) = true
        ∧ r = (s.skill_id, s.name, js.job_id) := by
  rw [gapRows, List.mem_flatMap]
  constructor
  · rintro ⟨s, hs, hr⟩
    by_cases hany : (db.user_skills.any (fun us => us.user_id == user_id &&
        us.skill_id == s.skill_id)) = true
    · rw [if_pos hany] at hr
      cases hr
    · rw [if_neg hany] at hr
      rw [List.mem_flatMap] at hr
      rcases hr with ⟨js, hjs, hr⟩
      rw [List.mem_map] at hr
      rcases hr with ⟨j, hj, rfl⟩
      rcases List.mem_filter.mp hjs with ⟨hjsm, hjsp⟩
      rcases List.mem_filter.mp hj with ⟨hjm, hjp⟩
      obtain ⟨hjid, hlike⟩ : j.job_id = js.job_id ∧
          likeB pattern (lowerStr j.title) = true := by simpa using hjp
      exact ⟨s, hs, Bool.eq_false_iff.mpr hany, js, hjsm,
        by simpa using hjsp, j, hjm, hjid, hlike, rfl⟩
  · rintro ⟨s, hs, hany, js, hjs, hjss, j, hj, hjid, hlike, rfl⟩
    refine ⟨s, hs, ?_⟩
    rw [if_neg (by rw [hany]; exact Bool.false_ne_true)]
    rw [List.mem_flatMap]
    refine ⟨js, List.mem_filter.mpr ⟨hjs, by simp [hjss]⟩, ?_⟩
    rw [List.mem_map]
    exact ⟨j, List.mem_filter.mpr ⟨hj, by simp [hjid, hlike]⟩, rfl⟩

theorem map_pair_eta (gs : List (Nat × String)) : gs.map (fun g => (g.1, g.2)) = gs := by
  induction gs with
  | nil => rfl
  | cons g gs ih => rw [List.map_cons, ih]

/-- Claim C8 counterexample: with role_pattern "a_b", the `_` LIKE
wildcard matches the concrete title "Axb Engineer", so the query returns
the skill although no posting title contains "a_b" as a substring
(case-insensitively). -/
theorem compute_gap_like_wildcard_cex :
    compute_gap gapDB0 5 "a_b" 2 = [(1, "sql", 1)]
    ∧ (∀ j ∈ gapDB0.jobs, subStr ("a_b".data) ((lowerStr j.title).data) = false) :=
  ⟨by decide, by decide⟩

/-- Claim C8 (amended): the gap query is a pure read whose result has at
most top_n rows, is sorted by non-increasing frequency, carries pairwise
distinct (skill_id, name) groups, excludes every skill recorded for the
user, draws every row from a posting whose lowercased title matches the
SQL LIKE pattern built from the lowercased role_pattern (substring
containment except when role_pattern itself contains % or _ wildcards),
and reports as frequency the exact number of joined LIKE-matching
rows, always at least one; an empty result is an ordinary value. -/
theorem compute_gap_invariants (db : GapDB) (user_id : Nat) (role_pattern : String)
    (top_n : Nat) :
    (compute_gap db user_id role_pattern top_n).length ≤ top_n
    ∧ (compute_gap db user_id role_pattern top_n).Pairwise (fun a b => b.2.2 ≤ a.2.2)
    ∧ ((compute_gap db user_id role_pattern top_n).map (fun e => (e.1, e.2.1))).Nodup
    ∧ ∀ e ∈ compute_gap db user_id role_pattern top_n,
        (∀ us ∈ db.user_skills, us.user_id = user_id → us.skill_id ≠ e.1)
        ∧ (∃ s ∈ db.skills, s.skill_id = e.1 ∧ s.name = e.2.1)
        ∧ (∃ js ∈ db.job_skills, js.skill_id = e.1 ∧ ∃ j ∈ db.jobs,
            j.job_id = js.job_id ∧
            likeB ("%" ++ lowerStr role_pattern ++ "%") (lowerStr j.title) = true)
        ∧ e.2.2 = ((gapRows db user_id ("%" ++ lowerStr role_pattern ++ "%")).filter
            (fun r => r.1 == e.1 && r.2.1 == e.2.1)).length
        ∧ 0 < e.2.2 := by
  have hgap : compute_gap db user_id role_pattern top_n =
      (sortDescBy (fun g => g.2.2)
        ((dedupFirstOcc ((gapRows db user_id
            ("%" ++ lowerStr role_pattern ++ "%")).map (fun r => (r.1, r.2.1)))).map
          (fun g => (g.1, g.2,
            ((gapRows db user_id ("%" ++ lowerStr role_pattern ++ "%")).filter
              (fun r => r.1 == g.1 && r.2.1 == g.2)).length)))).take top_n := rfl
  rw [hgap]
  refine ⟨List.length_take_le _ _,
    List.Pairwise.sublist (List.take_sublist _ _)
      (pairwise_sortDescBy (fun g : Nat × String × Nat => g.2.2) _), ?_, ?_⟩
  · rw [List.map_take]
    refine (List.take_sublist _ _).nodup ?_
    have hperm := (perm_sortDescBy (fun g : Nat × String × Nat => g.2.2)
      ((dedupFirstOcc ((gapRows db user_id
          ("%" ++ lowerStr role_pattern ++ "%")).map (fun r => (r.1, r.2.1)))).map
        (fun g => (g.1, g.2,
          ((gapRows db user_id ("%" ++ lowerStr role_pattern ++ "%")).filter
            (fun r => r.1 == g.1 && r.2.1 == g.2)).length)))).map
      (fun e : Nat × String × Nat => (e.1, e.2.1))
    refine hperm.nodup_iff.mpr ?_
    rw [List.map_map]
    have heta : ((dedupFirstOcc ((gapRows db user_id
        ("%" ++ lowerStr role_pattern ++ "%")).map (fun r => (r.1, r.2.1)))).map
        (((fun e : Nat × String × Nat => (e.1, e.2.1)) ∘
          (fun g : Nat × String => (g.1, g.2,
            ((gapRows db user_id ("%" ++ lowerStr role_pattern ++ "%")).filter
              (fun r => r.1 == g.1 && r.2.1 == g.2)).length))))) =
        dedupFirstOcc ((gapRows db user_id
          ("%" ++ lowerStr role_pattern ++ "%")).map (fun r => (r.1, r.2.1))) :=
      map_pair_eta _
    rw [heta]
    exact nodup_dedupFirstOcc _
  · intro e he
    have he2 := List.mem_of_mem_take he
    have he3 := (perm_sortDescBy (fun g : Nat × String × Nat => g.2.2) _).mem_iff.mp he2
    rcases List.mem_map.mp he3 with ⟨g, hg, rfl⟩
    rcases List.mem_map.mp (mem_dedupFirstOcc.mp hg) with ⟨r, hrr, hkey⟩
    obtain rfl := hkey
    rcases mem_gapRows.mp hrr with
      ⟨s, hs, hany, js, hjs, hjss, j, hj, hjid, hlike, hreq⟩
    obtain rfl := hreq
    have hanyf := List.any_eq_false.mp hany
    refine ⟨?_, ⟨s, hs, rfl, rfl⟩, ⟨js, hjs, hjss, j, hj, hjid, hlike⟩, rfl, ?_⟩
    · intro us hus huid hskill
      exact hanyf us hus (by simp [huid, hskill])
    · exact List.length_pos_of_mem (List.mem_filter.mpr ⟨hrr, by simp⟩)

/-- Claim C8 witness: the theorem applied at concrete tables realising
the spec scenario shape, plus the concrete query result. -/
theorem compute_gap_invariants_witness :
    compute_gap gapDB0 5 "engineer" 2 = [(1, "sql", 1)]
    ∧ (compute_gap gapDB0 5 "engineer" 2).length ≤ 2
    ∧ (compute_gap gapDB0 5 "engineer" 2).Pairwise (fun a b => b.2.2 ≤ a.2.2) := by
  have h := compute_gap_invariants gapDB0 5 "engineer" 2
  exact ⟨by decide, h.1, h.2.1⟩

end CareerCopilot
